import Mathlib

/-!
Regret-matching solver (`src/solver.cpp`, `src/blotto.cpp`).

A shallow embedding of the solver and a verification of its specification.

Modelling conventions.

* `float` values are exact rationals (`ℚ`): every statement below is a statement of exact
  arithmetic; rounding, infinities and NaN are outside the model.
* `std::vector<float>` is `List ℚ`.  An element access `v[i]` with `i` out of range is undefined
  behaviour in the source; it is modelled as failure (`none`), see `rd` and `wr`.
* A counting loop `for (i = 0; i < n; i++) body` is `forLoop n body`; the vectors whose `size()`
  bounds a loop are never resized inside it, so the bound is computed once.
* The global engine `std::mt19937 mt(42)` together with `dist(mt)` is a fixed sequence of draws
  and the number of draws consumed so far (`Mt`).
* `Player` and `Trainer` are textually the same in both source files (up to `int`/`unsigned` loop
  counters); they are embedded once, over the interface of `Game` they use (`num_actions` and
  `get_ev`).  `compare_strategy`, `opponent_best_action_ev`, `get_ev_p1` and
  `get_exploitability_p1` exist in `blotto.cpp` only.
* Member functions take the object and return it next to their result, also those that assign to
  no member; console output is not modelled.
* The `Game` of `blotto.cpp` is `Blotto.Game`; its `int` values are integers (`ℤ`).  The recursive
  lambda of `generate_action_space` carries a bound on the depth of its recursion, and the
  statements about it hold for every bound that covers the towers.
-/

namespace ToySolver

/-! ## Vectors and loops -/

/-- Element read `v[i]`; `none` stands for the undefined behaviour of an index out of range. -/
def rd {α : Type} (v : List α) (i : Nat) : Option α :=
  v[i]?

/-- Element write `v[i] = x`; `none` stands for the undefined behaviour of an index out of
range. -/
def wr {α : Type} (v : List α) (i : Nat) (x : α) : Option (List α) :=
  if i < v.length then some (v.set i x) else none

/-- The iterations `i, i+1, ..., i+count-1` of a counting loop, each one transforming the loop
state or failing. -/
def forLoopFrom {σ : Type} (body : Nat → σ → Option σ) : Nat → Nat → σ → Option σ
  | 0, _, s => some s
  | count + 1, i, s => (body i s).bind (forLoopFrom body count (i + 1))

/-- The loop `for (i = 0; i < n; i++) body`. -/
def forLoop {σ : Type} (n : Nat) (body : Nat → σ → Option σ) (s : σ) : Option σ :=
  forLoopFrom body n 0 s

/-! ## The random engine -/

/-- The global `mt` as seen through `dist(mt)`: the sequence of values the successive calls
yield, and how many of them have been consumed. -/
structure Mt where
  draws : Nat → ℚ
  pos : Nat

/-- One call `dist(mt)`: the next value, and the engine advanced by one draw. -/
def Mt.dist (mt : Mt) : ℚ × Mt :=
  (mt.draws mt.pos, { mt with pos := mt.pos + 1 })

/-! ## `get_action_from_strategy` -/

/-- The measure that decreases along the `while` loop of `get_action_from_strategy`. -/
def sampleMeasure (strategy : List ℚ) (r cum_prob : ℚ) (i : Nat) : Nat :=
  2 * (strategy.length - i) + (if cum_prob < r then 1 else 0)

/-- The loop `while (cum_prob < r && i < strategy.size()) { cum_prob += strategy[i];
if (cum_prob < r) i++; }` followed by `return i`. -/
def sampleLoop (strategy : List ℚ) (r : ℚ) (cum_prob : ℚ) (i : Nat) : Nat :=
  if h : cum_prob < r ∧ i < strategy.length then
    sampleLoop strategy r (cum_prob + strategy[i])
      (if cum_prob + strategy[i] < r then i + 1 else i)
  else i
termination_by sampleMeasure strategy r cum_prob i
decreasing_by
  simp only [sampleMeasure]
  have h1 := h.1
  split_ifs <;> omega

/-- With `r` the value drawn: `cum_prob = 0.0`, `i = 0`, the loop, `return i`. -/
def sampleWith (strategy : List ℚ) (r : ℚ) : Nat :=
  sampleLoop strategy r 0 0

/-- The function `get_action_from_strategy`: one draw `r = dist(mt)`, then the scan. -/
def get_action_from_strategy (strategy : List ℚ) (mt : Mt) : Nat × Mt :=
  (sampleWith strategy mt.dist.1, mt.dist.2)

/-! ## `Game` -/

/-- What `Player` and `Trainer` use of a `Game`: `num_actions` and `get_ev`, the latter failing
where the source indexes a vector out of range. -/
structure Game where
  num_actions : Nat
  get_ev : Nat → Nat → Option ℚ

/-- The vector `action_space` of the `Game` of `solver.cpp`. -/
def solver_action_space : List String :=
  ["rock", "paper", "scissors"]

/-- The function `Game::get_ev` of `solver.cpp`. -/
def solver_get_ev (a b : Nat) : Option ℚ := do
  let my_action ← rd solver_action_space a
  let opp_action ← rd solver_action_space b
  let ev : ℚ := 0
  if my_action = "rock" then
    let ev := if opp_action = "paper" then -2 else ev
    let ev := if opp_action = "scissors" then 1 else ev
    some ev
  else if my_action = "paper" then
    let ev := if opp_action = "rock" then 2 else ev
    let ev := if opp_action = "scissors" then -1 else ev
    some ev
  else if my_action = "scissors" then
    let ev := if opp_action = "rock" then -1 else ev
    let ev := if opp_action = "paper" then 1 else ev
    some ev
  else
    some ev

/-- The `Game` of `solver.cpp` as constructed by `Game()`. -/
def solverGame : Game where
  num_actions := solver_action_space.length
  get_ev := solver_get_ev

/-! ## `Player` -/

/-- The class `Player`. -/
structure Player where
  regret_sum : List ℚ
  strategy_sum : List ℚ
  game : Game

/-- The constructor `Player(Game g)`. -/
def Player.mk_from (g : Game) : Player where
  regret_sum := List.replicate g.num_actions 0
  strategy_sum := List.replicate g.num_actions 0
  game := g

/-- The first three loops of `Player::get_action`: the value of the local `strategy` when it is
added to `strategy_sum` and handed to `get_action_from_strategy`. -/
def get_action_strategy (regret_sum : List ℚ) : Option (List ℚ) := do
  let strategy := regret_sum
  let normalizing_sum : ℚ := 0
  let (strategy, normalizing_sum) ←
    forLoop strategy.length (fun i (st : List ℚ × ℚ) => do
      let x ← rd st.1 i
      let strategy ← if x < 0 then wr st.1 i 0 else some st.1
      let y ← rd strategy i
      some (strategy, st.2 + y)) (strategy, normalizing_sum)
  if normalizing_sum > 0 then
    forLoop strategy.length (fun i st => do
      let x ← rd st i
      wr st i (x / normalizing_sum)) strategy
  else
    forLoop strategy.length (fun i st =>
      wr st i (1 / (strategy.length : ℚ))) strategy

/-- The function `Player::get_action`. -/
def Player.get_action (p : Player) (mt : Mt) : Option (Player × Mt × Nat) := do
  let strategy ← get_action_strategy p.regret_sum
  let strategy_sum ←
    forLoop strategy.length (fun i ss => do
      let x ← rd ss i
      let y ← rd strategy i
      wr ss i (x + y)) p.strategy_sum
  let res := get_action_from_strategy strategy mt
  some ({ p with strategy_sum := strategy_sum }, res.2, res.1)

/-- The function `Player::update_regrets`. -/
def Player.update_regrets (p : Player) (my_action opp_action : Nat) : Option Player := do
  let base_ev ← p.game.get_ev my_action opp_action
  let regret_sum ←
    forLoop p.regret_sum.length (fun i rs => do
      let e ← p.game.get_ev i opp_action
      let x ← rd rs i
      wr rs i (x + (e - base_ev))) p.regret_sum
  some { p with regret_sum := regret_sum }

/-- The function `Player::get_average_strategy`. -/
def Player.get_average_strategy (p : Player) : Option (Player × List ℚ) := do
  let normalizing_sum : ℚ := 0
  let normalizing_sum ←
    forLoop p.strategy_sum.length (fun i s => do
      let x ← rd p.strategy_sum i
      some (s + x)) normalizing_sum
  if normalizing_sum ≤ 0 then
    some (p, List.replicate p.strategy_sum.length (1 / (p.strategy_sum.length : ℚ)))
  else
    let avg_strategy := p.strategy_sum
    let avg_strategy ←
      forLoop p.strategy_sum.length (fun i av => do
        let x ← rd av i
        wr av i (x / normalizing_sum)) avg_strategy
    some (p, avg_strategy)

/-- The function `Player::compare_strategy` (`blotto.cpp`). -/
def Player.compare_strategy (p : Player) (opp_strategy : List ℚ) : Option (Player × ℚ) := do
  let (p, my_strategy) ← p.get_average_strategy
  let ev : ℚ := 0
  let ev ←
    forLoop p.game.num_actions (fun my_action ev =>
      forLoop p.game.num_actions (fun opp_action ev => do
        let my_ev ← p.game.get_ev my_action opp_action
        let mine ← rd my_strategy my_action
        let theirs ← rd opp_strategy opp_action
        let action_probability := mine * theirs
        some (ev + my_ev * action_probability)) ev) ev
  some (p, ev)

/-- The function `Player::opponent_best_action_ev` (`blotto.cpp`). -/
def Player.opponent_best_action_ev (p : Player) (opp_strategy : List ℚ) :
    Option (Player × ℚ) := do
  let best_action_ev : ℚ := 0
  let best_action_ev ←
    forLoop p.game.num_actions (fun my_action best_action_ev => do
      let current_action_ev : ℚ := 0
      let current_action_ev ←
        forLoop p.game.num_actions (fun opp_action cur => do
          let my_ev ← p.game.get_ev my_action opp_action
          let play_probability ← rd opp_strategy opp_action
          some (cur + my_ev * play_probability)) current_action_ev
      some (if best_action_ev ≤ current_action_ev then current_action_ev
        else best_action_ev)) best_action_ev
  some (p, best_action_ev)

/-! ## `Trainer` -/

/-- The class `Trainer`. -/
structure Trainer where
  p1 : Player
  p2 : Player

/-- The body of the loop of `Trainer::train`, one round of self-play. -/
def Trainer.train_body (s : Trainer × Mt) : Option (Trainer × Mt) := do
  let (p1, mt, p1_action) ← s.1.p1.get_action s.2
  let (p2, mt, p2_action) ← s.1.p2.get_action mt
  let p1 ← p1.update_regrets p1_action p2_action
  let p2 ← p2.update_regrets p2_action p1_action
  some ({ p1 := p1, p2 := p2 }, mt)

/-- The function `Trainer::train`; `iterations` is a signed `int`. -/
def Trainer.train (t : Trainer) (iterations : ℤ) (mt : Mt) : Option (Trainer × Mt) :=
  forLoop iterations.toNat (fun _ s => Trainer.train_body s) (t, mt)

/-- The function `Trainer::get_average_strategy_p1`. -/
def Trainer.get_average_strategy_p1 (t : Trainer) : Option (Trainer × List ℚ) := do
  let (p1, avg) ← t.p1.get_average_strategy
  some ({ t with p1 := p1 }, avg)

/-- The function `Trainer::get_average_strategy_p2`. -/
def Trainer.get_average_strategy_p2 (t : Trainer) : Option (Trainer × List ℚ) := do
  let (p2, avg) ← t.p2.get_average_strategy
  some ({ t with p2 := p2 }, avg)

/-- The function `Trainer::get_ev_p1` (`blotto.cpp`). -/
def Trainer.get_ev_p1 (t : Trainer) : Option (Trainer × ℚ) := do
  let (t, p2_strategy) ← t.get_average_strategy_p2
  let (p1, ev) ← t.p1.compare_strategy p2_strategy
  some ({ t with p1 := p1 }, ev)

/-- The function `Trainer::get_exploitability_p1` (`blotto.cpp`). -/
def Trainer.get_exploitability_p1 (t : Trainer) : Option (Trainer × ℚ) := do
  let (t, p1_ev) ← t.get_ev_p1
  let (t, avg1) ← t.get_average_strategy_p1
  let (p2, ev_loss_to_best_response) ← t.p2.opponent_best_action_ev avg1
  some ({ t with p2 := p2 }, ev_loss_to_best_response - p1_ev)

/-! ## Auxiliary definitions for the statements about training -/

/-- The part of `Player::get_action` that precedes the sampling: the strategy is computed and
added into `strategy_sum`; the result is the updated player and the strategy. -/
def Player.get_action_core (p : Player) : Option (Player × List ℚ) :=
  (get_action_strategy p.regret_sum).bind fun strategy =>
    (forLoop strategy.length (fun i ss =>
      (rd ss i).bind fun x => (rd strategy i).bind fun y => wr ss i (x + y))
      p.strategy_sum).bind fun strategy_sum =>
        some ({ p with strategy_sum := strategy_sum }, strategy)

/-- One round of self-play as a function of the two values drawn in it, `r1` for `p1` and then
`r2` for `p2`: both players compute and accumulate their strategies, each samples an action with
its draw, `p1` updates its regrets with `(a1, a2)` and then `p2` with `(a2, a1)`. -/
def Trainer.round_of_draws (t : Trainer) (r1 r2 : ℚ) : Option Trainer :=
  t.p1.get_action_core.bind fun c1 =>
    t.p2.get_action_core.bind fun c2 =>
      (c1.1.update_regrets (sampleWith c1.2 r1) (sampleWith c2.2 r2)).bind fun p1 =>
        (c2.1.update_regrets (sampleWith c2.2 r2) (sampleWith c1.2 r1)).bind fun p2 =>
          some { p1 := p1, p2 := p2 }

/-- The trainer after `k` rounds as a function of the initial trainer and of the draws
`draws pos, draws (pos + 1), ..., draws (pos + 2 * k - 1)` alone, round `j` taking the draws
`pos + 2 * j` (for `p1`) and `pos + 2 * j + 1` (for `p2`). -/
def Trainer.rounds_of_draws (t : Trainer) (draws : Nat → ℚ) (pos : Nat) : Nat → Option Trainer
  | 0 => some t
  | k + 1 => (Trainer.rounds_of_draws t draws pos k).bind fun t' =>
      t'.round_of_draws (draws (pos + 2 * k)) (draws (pos + 2 * k + 1))

/-- A player fit for a game of `n` actions with payoffs `ev`: one regret and one strategy sum
per action, and a game of `n` actions whose `get_ev` is defined on the action indices, with the
values `ev`. -/
def Player.WellFormed (p : Player) (n : Nat) (ev : Nat → Nat → ℚ) : Prop :=
  p.regret_sum.length = n ∧ p.strategy_sum.length = n ∧ p.game.num_actions = n ∧
    ∀ a b, a < n → b < n → p.game.get_ev a b = some (ev a b)

/-! ## The `Game` of `blotto.cpp` -/

/-- The class `Game` of `blotto.cpp`. -/
structure Blotto.Game where
  num_actions : Nat
  action_space : List (List ℤ)
  tower_values : List ℤ

/-- The recursive lambda `generate` of `generate_action_space`, with the captured `actions` and
the vector `current` (passed by reference) as the state it transforms.  The first argument
bounds the depth of the recursion, which the source does not bound: `none` is an out-of-range
write into `current`, or a recursion deeper than the bound.  The test `index == num_towers - 1`
on `int` is `index + 1 = num_towers`. -/
def Blotto.generate (num_towers : Nat) :
    Nat → Nat → ℤ → List ℤ × List (List ℤ) → Option (List ℤ × List (List ℤ))
  | 0, _, _, _ => none
  | depth + 1, index, remaining, st =>
    if index + 1 = num_towers then
      (wr st.1 index remaining).bind fun current =>
        some (current, st.2 ++ [current])
    else
      forLoop (remaining + 1).toNat (fun i st =>
        (wr st.1 index (i : ℤ)).bind fun current =>
          Blotto.generate num_towers depth (index + 1) (remaining - (i : ℤ)) (current, st.2)) st

/-- The function `Game::generate_action_space`, with the local constant `num_troops` (5 in the
source) as a parameter; the recursion is given the depth `num_towers`. -/
def Blotto.generate_action_space_with (tower_values : List ℤ) (num_troops : ℤ) :
    Option (List (List ℤ)) :=
  let actions : List (List ℤ) := []
  let num_towers := tower_values.length
  let current : List ℤ := List.replicate num_towers 0
  (Blotto.generate num_towers num_towers 0 num_troops (current, actions)).bind fun st =>
    some st.2

/-- The function `Game::generate_action_space` as written: `num_troops = 5`. -/
def Blotto.generate_action_space (tower_values : List ℤ) : Option (List (List ℤ)) :=
  Blotto.generate_action_space_with tower_values 5

/-- The constructor `Game()` of `blotto.cpp`. -/
def Blotto.Game.new : Option Blotto.Game :=
  let tower_values : List ℤ := [1, 2]
  (Blotto.generate_action_space tower_values).bind fun action_space =>
    some { num_actions := action_space.length, action_space := action_space,
           tower_values := tower_values }

/-- The body of the loop of `Game::get_ev` of `blotto.cpp`, at tower `i`. -/
def Blotto.get_ev_body (tower_values my_distribution opp_distribution : List ℤ)
    (i : Nat) (score : ℚ) : Option ℚ :=
  (rd my_distribution i).bind fun m =>
    (rd opp_distribution i).bind fun o =>
      if m > o then
        (rd tower_values i).bind fun v => some (score + (v : ℚ))
      else if m < o then
        (rd tower_values i).bind fun v => some (score - (v : ℚ))
      else some score

/-- The function `Game::get_ev` of `blotto.cpp`; the loop runs over `i < 5`. -/
def Blotto.Game.get_ev (g : Blotto.Game) (a b : Nat) : Option ℚ :=
  (rd g.action_space a).bind fun my_distribution =>
    (rd g.action_space b).bind fun opp_distribution =>
      let score : ℚ := 0
      forLoop 5 (Blotto.get_ev_body g.tower_values my_distribution opp_distribution) score

/-- The `Game` of `blotto.cpp` as `Player` and `Trainer` use it. -/
def Blotto.Game.toGame (g : Blotto.Game) : ToySolver.Game where
  num_actions := g.num_actions
  get_ev := g.get_ev

/-- The splits of `T` troops among `m + 1` towers in the order of the generation rule: the
first tower takes `0, 1, ..., T` in turn, and the last tower takes the remainder. -/
def Blotto.splits : Nat → ℤ → List (List ℤ)
  | 0, T => [[T]]
  | m + 1, T => (List.range (T + 1).toNat).flatMap fun i =>
      (Blotto.splits m (T - (i : ℤ))).map fun w => (i : ℤ) :: w

/-! ## Loop rules -/

/-- Invariant rule for a stretch of iterations: an invariant that holds before and is carried
by every iteration makes the loop succeed in a state where it holds. -/
theorem forLoopFrom_inv {σ : Type} (body : Nat → σ → Option σ) (P : Nat → σ → Prop) :
    ∀ (count i : Nat) (s : σ), P i s →
      (∀ j t, i ≤ j → j < i + count → P j t → ∃ t', body j t = some t' ∧ P (j + 1) t') →
      ∃ s', forLoopFrom body count i s = some s' ∧ P (i + count) s' := by
  intro count
  induction count with
  | zero =>
    intro i s h0 _
    exact ⟨s, rfl, by simpa using h0⟩
  | succ c ih =>
    intro i s h0 hstep
    obtain ⟨t, ht, hPt⟩ := hstep i s (le_refl i) (by omega) h0
    obtain ⟨s', hs', hP'⟩ := ih (i + 1) t hPt (fun j u hj1 hj2 hu =>
      hstep j u (by omega) (by omega) hu)
    refine ⟨s', ?_, ?_⟩
    · simp [forLoopFrom, ht, hs']
    · have e : i + (c + 1) = i + 1 + c := by omega
      rw [e]
      exact hP'

/-- Invariant rule for `for (i = 0; i < n; i++) body`. -/
theorem forLoop_inv {σ : Type} (n : Nat) (body : Nat → σ → Option σ) (P : Nat → σ → Prop)
    (s : σ) (h0 : P 0 s)
    (hstep : ∀ j t, j < n → P j t → ∃ t', body j t = some t' ∧ P (j + 1) t') :
    ∃ s', forLoop n body s = some s' ∧ P n s' := by
  have h := forLoopFrom_inv body P n 0 s h0 (fun j t _ hj hP => hstep j t (by omega) hP)
  simpa [forLoop] using h

/-- One more iteration at the end of a stretch. -/
theorem forLoopFrom_succ {σ : Type} (body : Nat → σ → Option σ) :
    ∀ (count i : Nat) (s : σ),
      forLoopFrom body (count + 1) i s
        = (forLoopFrom body count i s).bind (body (i + count)) := by
  intro count
  induction count with
  | zero =>
    intro i s
    cases h : body i s <;> simp [forLoopFrom, h]
  | succ c ih =>
    intro i s
    have e : i + (c + 1) = i + 1 + c := by omega
    cases h : body i s with
    | none => simp [forLoopFrom, h]
    | some t =>
      have := ih (i + 1) t
      rw [forLoopFrom, h, Option.some_bind, this, e]
      simp [forLoopFrom, h]

/-- A loop of `n + 1` iterations is the loop of `n` iterations followed by iteration `n`. -/
theorem forLoop_succ {σ : Type} (n : Nat) (body : Nat → σ → Option σ) (s : σ) :
    forLoop (n + 1) body s = (forLoop n body s).bind (body n) := by
  simpa [forLoop] using forLoopFrom_succ body n 0 s

/-- No iteration when the bound is zero. -/
theorem forLoop_zero {σ : Type} (body : Nat → σ → Option σ) (s : σ) :
    forLoop 0 body s = some s := rfl

/-! ## Element access -/

theorem rd_eq_some {α : Type} (v : List α) (i : Nat) (h : i < v.length) :
    rd v i = some v[i] := by
  simp [rd, h]

theorem wr_eq_some {α : Type} (v : List α) (i : Nat) (x : α) (h : i < v.length) :
    wr v i x = some (v.set i x) := by
  simp [wr, h]

/-! ## `get_action_from_strategy` -/

/-- One unfolding of the `while` loop. -/
theorem sampleLoop_unfold (strategy : List ℚ) (r cum_prob : ℚ) (i : Nat) :
    sampleLoop strategy r cum_prob i =
      if h : cum_prob < r ∧ i < strategy.length then
        sampleLoop strategy r (cum_prob + strategy[i])
          (if cum_prob + strategy[i] < r then i + 1 else i)
      else i := by
  rw [sampleLoop]

/-- The loop stops at once when the running sum has reached the draw. -/
theorem sampleLoop_done (strategy : List ℚ) (r cum_prob : ℚ) (i : Nat) (h : ¬ cum_prob < r) :
    sampleLoop strategy r cum_prob i = i := by
  rw [sampleLoop_unfold, dif_neg (fun hc => h hc.1)]

/-- The loop stops at once at the end of the vector. -/
theorem sampleLoop_end (strategy : List ℚ) (r cum_prob : ℚ) (i : Nat)
    (h : strategy.length ≤ i) : sampleLoop strategy r cum_prob i = i := by
  rw [sampleLoop_unfold, dif_neg (fun hc => by omega)]

/-- What the scan returns when entered at index `i` with the sum of the first `i` entries, still
below the draw: an index between `i` and the length, every prefix sum before it is below the
draw, and the prefix sum at it, when it is an index of the vector, has reached the draw. -/
theorem sampleLoop_spec (strategy : List ℚ) (r : ℚ) :
    ∀ (d i : Nat) (cum_prob : ℚ), strategy.length - i = d → i ≤ strategy.length →
      cum_prob = (strategy.take i).sum → cum_prob < r →
      i ≤ sampleLoop strategy r cum_prob i ∧
      sampleLoop strategy r cum_prob i ≤ strategy.length ∧
      (∀ j, i ≤ j → j < sampleLoop strategy r cum_prob i → (strategy.take (j + 1)).sum < r) ∧
      (sampleLoop strategy r cum_prob i < strategy.length →
        r ≤ (strategy.take (sampleLoop strategy r cum_prob i + 1)).sum) := by
  intro d
  induction d with
  | zero =>
    intro i cum_prob hd hi _ _
    rw [sampleLoop_end strategy r cum_prob i (by omega)]
    exact ⟨le_refl _, hi, fun j h1 h2 => by omega, fun h => by omega⟩
  | succ d ih =>
    intro i cum_prob hd hi hcum hlt
    have hi' : i < strategy.length := by omega
    have hpre : (strategy.take (i + 1)).sum = cum_prob + strategy[i] := by
      rw [List.sum_take_succ strategy i hi', hcum]
    rw [sampleLoop_unfold, dif_pos ⟨hlt, hi'⟩]
    by_cases hc : cum_prob + strategy[i] < r
    · rw [if_pos hc]
      obtain ⟨h1, h2, h3, h4⟩ :=
        ih (i + 1) (cum_prob + strategy[i]) (by omega) (by omega) hpre.symm hc
      refine ⟨by omega, h2, ?_, h4⟩
      intro j hj1 hj2
      rcases Nat.eq_or_lt_of_le hj1 with e | l
      · subst e
        rw [hpre]
        exact hc
      · exact h3 j (by omega) hj2
    · rw [if_neg hc, sampleLoop_done strategy r _ i hc]
      refine ⟨le_refl _, hi, fun j h1 h2 => by omega, fun _ => ?_⟩
      rw [hpre]
      exact not_lt.mp hc

/-- The scan never returns an index beyond the length of the vector. -/
theorem sampleWith_le_length (strategy : List ℚ) (r : ℚ) :
    sampleWith strategy r ≤ strategy.length := by
  unfold sampleWith
  by_cases h : (0 : ℚ) < r
  · exact (sampleLoop_spec strategy r strategy.length 0 0 (by omega) (by omega) (by simp) h).2.1
  · rw [sampleLoop_done strategy r 0 0 h]
    omega

/-- C4. `get_action_from_strategy` returns the first index whose cumulative sum reaches the
draw: for a strategy of nonnegative entries and a draw `r = dist(mt)` in `[0,1)` such that some
prefix sum `strategy[0] + ... + strategy[k]` is at least `r`, the result is an index of the
vector, the prefix sum at the result is at least `r`, and the prefix sum at every smaller index
is below `r`; the engine has advanced by one draw. -/
theorem get_action_from_strategy_first (strategy : List ℚ) (mt : Mt)
    (hnn : ∀ x ∈ strategy, 0 ≤ x)
    (hr0 : 0 ≤ mt.draws mt.pos) (_hr1 : mt.draws mt.pos < 1)
    (hex : ∃ k, k < strategy.length ∧ mt.draws mt.pos ≤ (strategy.take (k + 1)).sum) :
    (get_action_from_strategy strategy mt).1 < strategy.length ∧
    mt.draws mt.pos ≤ (strategy.take ((get_action_from_strategy strategy mt).1 + 1)).sum ∧
    (∀ j, j < (get_action_from_strategy strategy mt).1 →
      (strategy.take (j + 1)).sum < mt.draws mt.pos) ∧
    (get_action_from_strategy strategy mt).2.draws = mt.draws ∧
    (get_action_from_strategy strategy mt).2.pos = mt.pos + 1 := by
  obtain ⟨k, hk, hksum⟩ := hex
  simp only [get_action_from_strategy, Mt.dist, sampleWith, and_true]
  by_cases h : (0 : ℚ) < mt.draws mt.pos
  · obtain ⟨_, h2, h3, h4⟩ :=
      sampleLoop_spec strategy (mt.draws mt.pos) strategy.length 0 0 (by omega) (by omega)
        (by simp) h
    have hlt : sampleLoop strategy (mt.draws mt.pos) 0 0 < strategy.length := by
      by_contra hge
      have hk' : k < sampleLoop strategy (mt.draws mt.pos) 0 0 := by omega
      exact absurd hksum (not_le.mpr (h3 k (by omega) hk'))
    exact ⟨hlt, h4 hlt, fun j hj => h3 j (by omega) hj⟩
  · rw [sampleLoop_done strategy (mt.draws mt.pos) 0 0 h]
    have hpos : 0 < strategy.length := by omega
    refine ⟨hpos, ?_, fun j hj => by omega⟩
    have hr : mt.draws mt.pos = 0 := le_antisymm (not_lt.mp h) hr0
    rw [hr, List.sum_take_succ strategy 0 hpos]
    simpa using hnn strategy[0] (List.getElem_mem _)

/-- C4, at a concrete input: the strategy `[1/4, 1/4, 1/2]` and the draw `3/10`. -/
theorem get_action_from_strategy_first_witness :
    (get_action_from_strategy [1/4, 1/4, 1/2] ⟨fun _ => 3/10, 0⟩).1 < 3 ∧
    (3/10 : ℚ) ≤
      (List.take ((get_action_from_strategy [1/4, 1/4, 1/2] ⟨fun _ => 3/10, 0⟩).1 + 1)
        [(1/4 : ℚ), 1/4, 1/2]).sum ∧
    (∀ j, j < (get_action_from_strategy [1/4, 1/4, 1/2] ⟨fun _ => 3/10, 0⟩).1 →
      (List.take (j + 1) [(1/4 : ℚ), 1/4, 1/2]).sum < 3/10) := by
  have h := get_action_from_strategy_first [1/4, 1/4, 1/2] ⟨fun _ => 3/10, 0⟩
    (by intro x hx; simp at hx; rcases hx with rfl | rfl | rfl <;> norm_num)
    (by norm_num) (by norm_num) ⟨1, by simp, by norm_num⟩
  exact ⟨h.1, h.2.1, h.2.2.1⟩

/-- C5. The scan runs off the end of the vector when the total of the entries is below the
draw: for the one-entry strategy `[1/2]` and the draw `3/4` in `[0,1)`,
`get_action_from_strategy` returns `1`, the length of the vector, which is not an index of it. -/
theorem get_action_from_strategy_out_of_range :
    (∀ x ∈ [(1/2 : ℚ)], 0 ≤ x) ∧ (0 : ℚ) ≤ 3/4 ∧ (3/4 : ℚ) < 1 ∧
    (get_action_from_strategy [1/2] ⟨fun _ => 3/4, 0⟩).1 = [(1/2 : ℚ)].length ∧
    ¬ (get_action_from_strategy [1/2] ⟨fun _ => 3/4, 0⟩).1 ≤ [(1/2 : ℚ)].length - 1 := by
  have e : (get_action_from_strategy [1/2] ⟨fun _ => 3/4, 0⟩).1 = 1 := by
    simp only [get_action_from_strategy, Mt.dist, sampleWith]
    rw [sampleLoop_unfold, dif_pos (by norm_num)]
    rw [sampleLoop_end _ _ _ _ (by norm_num)]
    norm_num
  refine ⟨by intro x hx; simp at hx; subst hx; norm_num, by norm_num, by norm_num, ?_, ?_⟩
  · rw [e]; rfl
  · rw [e]; simp

/-! ## Loops that update a vector entry by entry, loops that sum -/

/-- A loop whose iteration `i` replaces entry `i` of the vector by `f i` of it: it succeeds when
the bound is within the vector, keeps the length, rewrites the entries below the bound and
leaves the others. -/
theorem forLoop_update (v : List ℚ) (n : Nat) (hn : n ≤ v.length)
    (body : Nat → List ℚ → Option (List ℚ)) (f : Nat → ℚ → ℚ)
    (hbody : ∀ i st x, i < n → rd st i = some x → body i st = wr st i (f i x)) :
    ∃ out, forLoop n body v = some out ∧ out.length = v.length ∧
      (∀ j, j < n → out[j]? = v[j]?.map (f j)) ∧ (∀ j, n ≤ j → out[j]? = v[j]?) := by
  have h := forLoop_inv n body
    (fun i st => st.length = v.length ∧ (∀ j, j < i → st[j]? = v[j]?.map (f j)) ∧
      (∀ j, i ≤ j → st[j]? = v[j]?)) v
    ⟨rfl, fun j hj => by omega, fun j _ => rfl⟩
    (by
      rintro i st hi ⟨hlen, hlo, hhi⟩
      have hist : i < st.length := by omega
      have hrd : rd st i = some st[i] := rd_eq_some st i hist
      have hsti : st[i]? = v[i]? := hhi i (le_refl i)
      refine ⟨st.set i (f i st[i]), ?_, ?_, ?_, ?_⟩
      · rw [hbody i st st[i] hi hrd, wr_eq_some st i _ hist]
      · simpa using hlen
      · intro j hj
        rcases Nat.eq_or_lt_of_le (Nat.lt_succ_iff.mp hj) with e | l
        · subst e
          rw [List.getElem?_set_self hist, ← hsti, List.getElem?_eq_getElem hist]
          rfl
        · rw [List.getElem?_set_ne (by omega)]
          exact hlo j l
      · intro j hj
        rw [List.getElem?_set_ne (by omega)]
        exact hhi j (by omega))
  obtain ⟨out, h1, h2, h3, h4⟩ := h
  exact ⟨out, h1, h2, h3, h4⟩

/-- A loop whose iteration `i` adds `g i` to an accumulator returns the accumulator plus the sum
of the `g i`. -/
theorem forLoop_sum (n : Nat) (body : Nat → ℚ → Option ℚ) (g : Nat → ℚ) (s0 : ℚ)
    (hbody : ∀ i s, i < n → body i s = some (s + g i)) :
    forLoop n body s0 = some (s0 + ∑ i in Finset.range n, g i) := by
  have h := forLoop_inv n body (fun i s => s = s0 + ∑ k in Finset.range i, g k) s0
    (by simp)
    (by
      intro i s hi hs
      refine ⟨s + g i, hbody i s hi, ?_⟩
      show s + g i = s0 + ∑ k in Finset.range (i + 1), g k
      rw [Finset.sum_range_succ, hs]
      ring)
  obtain ⟨out, h1, h2⟩ := h
  rw [h1, h2]

/-- The sum of a vector, entry by entry. -/
theorem sum_range_getD (v : List ℚ) :
    ∑ i in Finset.range v.length, v.getD i 0 = v.sum := by
  induction v with
  | nil => simp
  | cons a t ih =>
    rw [List.length_cons, Finset.sum_range_succ', List.sum_cons]
    simp only [List.getD_cons_succ, List.getD_cons_zero]
    rw [ih]
    ring

/-- Two vectors with the same entries are equal. -/
theorem eq_map_of_getElem? (out v : List ℚ) (f : ℚ → ℚ)
    (h : ∀ j, j < v.length → out[j]? = v[j]?.map f) (hlen : out.length = v.length) :
    out = v.map f := by
  apply List.ext_getElem?
  intro j
  by_cases hj : j < v.length
  · rw [h j hj, List.getElem?_map]
  · rw [List.getElem?_eq_none (by omega), List.getElem?_eq_none (by simp; omega)]

/-! ## `Player::get_action` -/

/-- The first loop of `get_action`: every negative entry is replaced by zero, and the entries
so clipped are summed. -/
theorem clip_loop (regret_sum : List ℚ) :
    forLoop regret_sum.length (fun i (st : List ℚ × ℚ) =>
      (rd st.1 i).bind (fun x =>
        if x < 0 then (wr st.1 i 0).bind (fun a => (rd a i).bind (fun y => some (a, st.2 + y)))
        else (some st.1).bind (fun a => (rd a i).bind (fun y => some (a, st.2 + y))))) (regret_sum, 0)
      = some (regret_sum.map (fun x => max x 0), (regret_sum.map (fun x => max x 0)).sum) := by
  have h := forLoop_inv regret_sum.length (fun i (st : List ℚ × ℚ) =>
      (rd st.1 i).bind (fun x =>
        if x < 0 then (wr st.1 i 0).bind (fun a => (rd a i).bind (fun y => some (a, st.2 + y)))
        else (some st.1).bind (fun a => (rd a i).bind (fun y => some (a, st.2 + y)))))
    (fun i st => st.1.length = regret_sum.length ∧
      (∀ j, j < i → st.1[j]? = regret_sum[j]?.map (fun x => max x 0)) ∧
      (∀ j, i ≤ j → st.1[j]? = regret_sum[j]?) ∧
      st.2 = ((regret_sum.map (fun x => max x 0)).take i).sum) (regret_sum, 0)
    ⟨rfl, fun j hj => by omega, fun j _ => rfl, by simp⟩
    (by
      rintro i ⟨st, s⟩ hi ⟨hlen, hlo, hhi, hs⟩
      simp only at hlen hlo hhi hs
      have hist : i < st.length := by omega
      have hsti : st[i] = regret_sum[i] := by
        have := hhi i (le_refl i)
        rw [List.getElem?_eq_getElem hist, List.getElem?_eq_getElem hi] at this
        exact Option.some.inj this
      have hsum : ((regret_sum.map (fun x => max x 0)).take (i + 1)).sum
          = s + max regret_sum[i] 0 := by
        rw [List.sum_take_succ _ i (by simpa using hi), hs]
        simp
      by_cases hneg : regret_sum[i] < 0
      · refine ⟨(st.set i 0, s + 0), ?_, ?_, ?_, ?_, ?_⟩
        · simp [rd, wr, hist, List.getElem?_eq_getElem hist, hsti, hneg]
        · simpa using hlen
        · intro j hj
          rcases Nat.eq_or_lt_of_le (Nat.lt_succ_iff.mp hj) with e | l
          · subst e
            simp [List.getElem?_set_self hist, List.getElem?_eq_getElem hi, max_eq_right hneg.le]
          · simp only
            rw [List.getElem?_set_ne (by omega)]
            exact hlo j l
        · intro j hj
          simp only
          rw [List.getElem?_set_ne (by omega)]
          exact hhi j (by omega)
        · simp only
          rw [hsum, max_eq_right hneg.le]
      · refine ⟨(st, s + regret_sum[i]), ?_, hlen, ?_, ?_, ?_⟩
        · simp [rd, hist, List.getElem?_eq_getElem hist, hsti, hneg]
        · intro j hj
          rcases Nat.eq_or_lt_of_le (Nat.lt_succ_iff.mp hj) with e | l
          · subst e
            simp only
            rw [hhi j (le_refl j), List.getElem?_eq_getElem hi]
            simp [max_eq_left (not_lt.mp hneg)]
          · exact hlo j l
        · intro j hj
          exact hhi j (by omega)
        · simp only
          rw [hsum, max_eq_left (not_lt.mp hneg)])
  obtain ⟨⟨out, s⟩, h1, h2, h3, _, h5⟩ := h
  simp only at h2 h3 h5
  rw [h1]
  have e1 : out = regret_sum.map (fun x => max x 0) :=
    eq_map_of_getElem? out regret_sum _ (fun j hj => h3 j hj) h2
  have e2 : s = (regret_sum.map (fun x => max x 0)).sum := by
    rw [h5, List.take_of_length_le (by simp)]
  rw [e1, e2]

/-- The local `strategy` of `get_action` in closed form: the clipped regrets divided by their
sum when that sum is positive, the uniform vector otherwise. -/
theorem get_action_strategy_eq (regret_sum : List ℚ) :
    get_action_strategy regret_sum = some
      (if 0 < (regret_sum.map (fun x => max x 0)).sum then
        (regret_sum.map (fun x => max x 0)).map
          (fun x => x / (regret_sum.map (fun x => max x 0)).sum)
      else List.replicate regret_sum.length (1 / (regret_sum.length : ℚ))) := by
  unfold get_action_strategy
  simp only [bind, pure]
  rw [clip_loop]
  simp only [Option.some_bind, gt_iff_lt, List.length_map]
  by_cases hS : 0 < (regret_sum.map (fun x => max x 0)).sum
  · rw [if_pos hS, if_pos hS]
    obtain ⟨out, h1, h2, h3, _⟩ := forLoop_update (regret_sum.map (fun x => max x 0))
      regret_sum.length (by simp)
      (fun i st => (rd st i).bind fun x =>
        wr st i (x / (regret_sum.map (fun x => max x 0)).sum))
      (fun _ x => x / (regret_sum.map (fun x => max x 0)).sum)
      (fun i st x _ hx => by simp [hx])
    rw [h1]
    congr 1
    exact eq_map_of_getElem? out _ _ (fun j hj => h3 j (by simpa using hj)) h2
  · rw [if_neg hS, if_neg hS]
    obtain ⟨out, h1, h2, h3, _⟩ := forLoop_update (regret_sum.map (fun x => max x 0))
      regret_sum.length (by simp)
      (fun i st => wr st i (1 / (regret_sum.length : ℚ)))
      (fun _ _ => 1 / (regret_sum.length : ℚ))
      (fun i st x _ _ => rfl)
    rw [h1]
    congr 1
    apply List.ext_getElem?
    intro j
    by_cases hj : j < regret_sum.length
    · rw [h3 j hj, List.getElem?_map, List.getElem?_eq_getElem hj,
        List.getElem?_eq_getElem (by simpa using hj)]
      simp
    · rw [List.getElem?_eq_none (by simp at h2; omega),
        List.getElem?_eq_none (by simp; omega)]

/-- The local `strategy` of `get_action` has the length of `regret_sum`. -/
theorem get_action_strategy_length (regret_sum strategy : List ℚ)
    (h : get_action_strategy regret_sum = some strategy) :
    strategy.length = regret_sum.length := by
  rw [get_action_strategy_eq] at h
  have e := Option.some.inj h
  rw [← e]
  split_ifs <;> simp

/-- What `get_action` does with the strategy it computed: it adds it, entry by entry, into
`strategy_sum`, and returns the index sampled from it with one draw. -/
theorem get_action_eq (p : Player) (mt : Mt) (strategy : List ℚ)
    (hs : get_action_strategy p.regret_sum = some strategy)
    (hlen : p.regret_sum.length ≤ p.strategy_sum.length) :
    ∃ ss, p.get_action mt = some ({ p with strategy_sum := ss },
        (get_action_from_strategy strategy mt).2, (get_action_from_strategy strategy mt).1) ∧
      ss.length = p.strategy_sum.length ∧
      (∀ j, j < strategy.length → ss[j]? = p.strategy_sum[j]?.map (fun x => x + strategy.getD j 0)) ∧
      (∀ j, strategy.length ≤ j → ss[j]? = p.strategy_sum[j]?) := by
  have hl := get_action_strategy_length p.regret_sum strategy hs
  obtain ⟨ss, h1, h2, h3, h4⟩ := forLoop_update p.strategy_sum strategy.length (by omega)
    (fun i ss => (rd ss i).bind fun x => (rd strategy i).bind fun y => wr ss i (x + y))
    (fun j x => x + strategy.getD j 0)
    (fun i st x hi hx => by
      simp only [hx, Option.some_bind]
      simp [rd, List.getElem?_eq_getElem hi, List.getD_eq_getElem _ _ hi])
  refine ⟨ss, ?_, h2, h3, h4⟩
  unfold Player.get_action
  simp only [bind, pure]
  rw [hs, Option.some_bind, h1, Option.some_bind]

/-- C1. `Player::get_action` computes the regret-matching strategy.  For a player whose
`regret_sum` has length `n > 0`, with `c[i] = max(regret_sum[i], 0)` and `S` the sum of the
`c[i]`: the local `strategy` is computed without fault and has length `n`; `S` is positive or
zero; when `S > 0` its entry `i` is `c[i] / S`, when `S = 0` it is `1 / n`; when `strategy_sum`
is as long as `regret_sum`, `get_action` returns the index `get_action_from_strategy` samples
from this very strategy; and for a freshly constructed player the strategy is the uniform
vector, `1 / num_actions` in each of its `num_actions` entries. -/
theorem get_action_regret_matching (p : Player) (mt : Mt) (_hn : 0 < p.regret_sum.length) :
    ∃ strategy, get_action_strategy p.regret_sum = some strategy ∧
      strategy.length = p.regret_sum.length ∧
      (0 < (p.regret_sum.map (fun x => max x 0)).sum ∨
        (p.regret_sum.map (fun x => max x 0)).sum = 0) ∧
      (0 < (p.regret_sum.map (fun x => max x 0)).sum →
        ∀ i (h : i < p.regret_sum.length), strategy[i]? =
          some (max p.regret_sum[i] 0 / (p.regret_sum.map (fun x => max x 0)).sum)) ∧
      ((p.regret_sum.map (fun x => max x 0)).sum = 0 →
        ∀ i, i < p.regret_sum.length →
          strategy[i]? = some (1 / (p.regret_sum.length : ℚ))) ∧
      (p.strategy_sum.length = p.regret_sum.length →
        ∃ p', p.get_action mt = some (p', (get_action_from_strategy strategy mt).2,
          (get_action_from_strategy strategy mt).1)) ∧
      (∀ g : Game, p = Player.mk_from g →
        strategy = List.replicate g.num_actions (1 / (g.num_actions : ℚ))) := by
  have hS0 : 0 ≤ (p.regret_sum.map (fun x => max x 0)).sum := by
    apply List.sum_nonneg
    intro x hx
    obtain ⟨y, _, rfl⟩ := List.mem_map.mp hx
    exact le_max_right y 0
  have heq := get_action_strategy_eq p.regret_sum
  refine ⟨_, heq, ?_, ?_, ?_, ?_, ?_, ?_⟩
  · split_ifs <;> simp
  · rcases lt_or_eq_of_le hS0 with h | h
    · exact Or.inl h
    · exact Or.inr h.symm
  · intro hS i hi
    rw [if_pos hS]
    simp [List.getElem?_eq_getElem hi]
  · intro hS i hi
    rw [if_neg (by rw [hS]; exact lt_irrefl 0)]
    simp [List.getElem?_replicate, hi]
  · intro hlen
    obtain ⟨ss, h1, _⟩ := get_action_eq p mt _ heq (by omega)
    exact ⟨_, h1⟩
  · intro g hg
    subst hg
    have hz : ((Player.mk_from g).regret_sum.map (fun x => max x 0)).sum = 0 := by
      simp [Player.mk_from]
    rw [if_neg (by rw [hz]; exact lt_irrefl 0)]
    simp [Player.mk_from]

/-- C1, at a concrete input: a player of the rock-paper-scissors game with regrets
`[3, -2, 1]`, whose strategy is `[3/4, 0, 1/4]`. -/
theorem get_action_regret_matching_witness :
    get_action_strategy [3, -2, 1] = some [3/4, 0, 1/4] := by
  obtain ⟨strategy, hs, hlen, _, hpos, _, _, _⟩ :=
    get_action_regret_matching ⟨[3, -2, 1], [0, 0, 0], solverGame⟩ ⟨fun _ => 1/2, 0⟩
      (by simp)
  have hS : (0 : ℚ) < (List.map (fun x => max x 0) [(3 : ℚ), -2, 1]).sum := by norm_num
  have h0 := hpos hS 0 (by simp)
  have h1 := hpos hS 1 (by simp)
  have h2 := hpos hS 2 (by simp)
  rw [hs]
  congr 1
  apply List.ext_getElem?
  intro j
  rcases j with _ | _ | _ | j
  · rw [h0]; norm_num
  · rw [h1]; norm_num
  · rw [h2]; norm_num
  · simp only [List.length_cons, List.length_nil] at hlen
    rw [List.getElem?_eq_none (by omega), List.getElem?_eq_none (by simp)]

/-! ## `Player::update_regrets` -/

/-- The effect of `update_regrets` on a player whose `regret_sum` has one entry per action, for
a game whose `get_ev` is defined (with values `ev`) on the action indices. -/
theorem update_regrets_eq (p : Player) (my_action opp_action : Nat) (ev : Nat → Nat → ℚ)
    (hlen : p.regret_sum.length = p.game.num_actions)
    (hev : ∀ a b, a < p.game.num_actions → b < p.game.num_actions →
      p.game.get_ev a b = some (ev a b))
    (hmy : my_action < p.game.num_actions) (hopp : opp_action < p.game.num_actions) :
    ∃ rs, p.update_regrets my_action opp_action = some { p with regret_sum := rs } ∧
      rs.length = p.regret_sum.length ∧
      (∀ a, a < p.regret_sum.length → rs[a]? =
        p.regret_sum[a]?.map (fun x => x + (ev a opp_action - ev my_action opp_action))) := by
  obtain ⟨rs, h1, h2, h3, _⟩ := forLoop_update p.regret_sum p.regret_sum.length (le_refl _)
    (fun i rs => (p.game.get_ev i opp_action).bind fun e => (rd rs i).bind fun x =>
      wr rs i (x + (e - ev my_action opp_action)))
    (fun a x => x + (ev a opp_action - ev my_action opp_action))
    (fun i st x hi hx => by
      simp only [hev i opp_action (by omega) hopp, hx, Option.some_bind])
  refine ⟨rs, ?_, h2, h3⟩
  unfold Player.update_regrets
  simp only [bind, pure]
  rw [hev my_action opp_action hmy hopp, Option.some_bind, h1, Option.some_bind]

/-- C2. `Player::update_regrets(my_action, opp_action)`, for action indices of the game (whose
`get_ev` is defined there, with values `ev`) and a player with one regret per action, succeeds
and adds exactly `get_ev(a, opp_action) - get_ev(my_action, opp_action)` to `regret_sum[a]` for
every action `a`; `regret_sum[my_action]` is unchanged, and so are `strategy_sum` and the
game. -/
theorem update_regrets_adds (p : Player) (my_action opp_action : Nat) (ev : Nat → Nat → ℚ)
    (hlen : p.regret_sum.length = p.game.num_actions)
    (hev : ∀ a b, a < p.game.num_actions → b < p.game.num_actions →
      p.game.get_ev a b = some (ev a b))
    (hmy : my_action < p.game.num_actions) (hopp : opp_action < p.game.num_actions) :
    ∃ p', p.update_regrets my_action opp_action = some p' ∧
      p'.regret_sum.length = p.regret_sum.length ∧
      (∀ a (h : a < p.regret_sum.length), p'.regret_sum[a]? =
        some (p.regret_sum[a] + (ev a opp_action - ev my_action opp_action))) ∧
      p'.regret_sum[my_action]? = p.regret_sum[my_action]? ∧
      p'.strategy_sum = p.strategy_sum ∧ p'.game = p.game := by
  obtain ⟨rs, h1, h2, h3⟩ := update_regrets_eq p my_action opp_action ev hlen hev hmy hopp
  refine ⟨_, h1, h2, ?_, ?_, rfl, rfl⟩
  · intro a ha
    show rs[a]? = _
    rw [h3 a ha, List.getElem?_eq_getElem ha]
    rfl
  · show rs[my_action]? = _
    rw [h3 my_action (by omega)]
    cases p.regret_sum[my_action]? <;> simp

/-- The `get_ev` of `solver.cpp` is defined on the three action indices. -/
theorem solver_get_ev_defined (a b : Nat) (ha : a < solverGame.num_actions)
    (hb : b < solverGame.num_actions) :
    solverGame.get_ev a b = some ((solver_get_ev a b).getD 0) := by
  simp only [solverGame, solver_action_space, List.length_cons, List.length_nil] at ha hb
  interval_cases a <;> interval_cases b <;>
    simp [solverGame, solver_get_ev, rd, solver_action_space]

/-- C2, at a concrete input: rock-paper-scissors, regrets `[3, -2, 1]`, the player played rock
against paper; the regrets become `[3, 0, 4]`. -/
theorem update_regrets_adds_witness :
    ∃ p', (⟨[3, -2, 1], [0, 0, 0], solverGame⟩ : Player).update_regrets 0 1 = some p' ∧
      p'.regret_sum[0]? = some 3 ∧ p'.regret_sum[1]? = some 0 ∧ p'.regret_sum[2]? = some 4 ∧
      p'.strategy_sum = [0, 0, 0] := by
  obtain ⟨p', h1, _, h3, _, h5, _⟩ :=
    update_regrets_adds ⟨[3, -2, 1], [0, 0, 0], solverGame⟩ 0 1
      (fun a b => (solver_get_ev a b).getD 0) (by simp [solverGame, solver_action_space])
      solver_get_ev_defined (by simp [solverGame, solver_action_space])
      (by simp [solverGame, solver_action_space])
  refine ⟨p', h1, ?_, ?_, ?_, h5⟩
  · rw [h3 0 (by simp)]
    simp [solver_get_ev, rd, solver_action_space]
  · rw [h3 1 (by simp)]
    simp [solver_get_ev, rd, solver_action_space]
  · rw [h3 2 (by simp)]
    simp [solver_get_ev, rd, solver_action_space]
    norm_num

/-! ## `Player::get_average_strategy` -/

/-- The function `get_average_strategy` in closed form: it returns the player as it was, and the
uniform vector when the total of `strategy_sum` is not positive, `strategy_sum` divided by its
total otherwise. -/
theorem get_average_strategy_eq (p : Player) :
    p.get_average_strategy = some (p,
      if p.strategy_sum.sum ≤ 0 then
        List.replicate p.strategy_sum.length (1 / (p.strategy_sum.length : ℚ))
      else p.strategy_sum.map (fun x => x / p.strategy_sum.sum)) := by
  unfold Player.get_average_strategy
  simp only [bind, pure]
  rw [forLoop_sum p.strategy_sum.length _ (fun i => p.strategy_sum.getD i 0) 0
    (fun i s hi => by simp [rd, List.getElem?_eq_getElem hi, List.getD_eq_getElem _ _ hi])]
  rw [sum_range_getD, zero_add, Option.some_bind]
  by_cases hS : p.strategy_sum.sum ≤ 0
  · rw [if_pos hS, if_pos hS]
  · rw [if_neg hS, if_neg hS]
    obtain ⟨out, h1, h2, h3, _⟩ := forLoop_update p.strategy_sum p.strategy_sum.length
      (le_refl _)
      (fun i av => (rd av i).bind fun x => wr av i (x / p.strategy_sum.sum))
      (fun _ x => x / p.strategy_sum.sum)
      (fun i st x _ hx => by simp [hx])
    rw [h1, Option.some_bind]
    congr 2
    exact eq_map_of_getElem? out _ _ (fun j hj => h3 j hj) h2

/-- C6. `Player::get_average_strategy` never fails and returns the player unmodified; the
vector it returns has one entry per entry of `strategy_sum`; with `total` the sum of
`strategy_sum`, entry `i` is `strategy_sum[i] / total` when `total > 0`, and the vector is the
uniform one (`1/n` in each of its `n` entries) when `total <= 0`. -/
theorem get_average_strategy_spec (p : Player) :
    ∃ avg, p.get_average_strategy = some (p, avg) ∧
      avg.length = p.strategy_sum.length ∧
      (0 < p.strategy_sum.sum → ∀ i (h : i < p.strategy_sum.length),
        avg[i]? = some (p.strategy_sum[i] / p.strategy_sum.sum)) ∧
      (p.strategy_sum.sum ≤ 0 →
        avg = List.replicate p.strategy_sum.length (1 / (p.strategy_sum.length : ℚ))) := by
  refine ⟨_, get_average_strategy_eq p, ?_, ?_, ?_⟩
  · split_ifs <;> simp
  · intro hS i hi
    rw [if_neg (not_le.mpr hS)]
    simp [List.getElem?_eq_getElem hi]
  · intro hS
    rw [if_pos hS]

/-! ## Distributions -/

/-- The uniform vector over `n > 0` actions is a distribution. -/
theorem uniform_valid (n : Nat) (hn : 0 < n) :
    (∀ x ∈ List.replicate n (1 / (n : ℚ)), 0 ≤ x) ∧
    (List.replicate n (1 / (n : ℚ))).sum = 1 := by
  have hn' : (n : ℚ) ≠ 0 := by exact_mod_cast hn.ne'
  constructor
  · intro x hx
    rw [(List.mem_replicate.mp hx).2]
    positivity
  · rw [List.sum_replicate, nsmul_eq_mul, mul_one_div_cancel hn']

/-- The sum of a vector divided entrywise by a constant. -/
theorem sum_map_div (l : List ℚ) (c : ℚ) : (l.map (fun x => x / c)).sum = l.sum / c := by
  induction l with
  | nil => simp
  | cons a t ih => simp [ih, add_div]

/-- A vector of nonnegative entries with a positive total, divided by its total, is a
distribution. -/
theorem normalized_valid (l : List ℚ) (hnn : ∀ x ∈ l, 0 ≤ x) (hS : 0 < l.sum) :
    (∀ x ∈ l.map (fun x => x / l.sum), 0 ≤ x) ∧ (l.map (fun x => x / l.sum)).sum = 1 := by
  constructor
  · intro x hx
    obtain ⟨y, hy, rfl⟩ := List.mem_map.mp hx
    exact div_nonneg (hnn y hy) hS.le
  · rw [sum_map_div, div_self hS.ne']

/-- The strategy of `get_action` is a distribution over the entries of `regret_sum`. -/
theorem get_action_strategy_valid (regret_sum : List ℚ) (hn : 0 < regret_sum.length) :
    ∃ strategy, get_action_strategy regret_sum = some strategy ∧
      strategy.length = regret_sum.length ∧ (∀ x ∈ strategy, 0 ≤ x) ∧ strategy.sum = 1 := by
  refine ⟨_, get_action_strategy_eq regret_sum, ?_, ?_⟩
  · split_ifs <;> simp
  · by_cases hS : 0 < (regret_sum.map (fun x => max x 0)).sum
    · rw [if_pos hS]
      exact normalized_valid _ (fun x hx => by
        obtain ⟨y, _, rfl⟩ := List.mem_map.mp hx
        exact le_max_right y 0) hS
    · rw [if_neg hS]
      exact uniform_valid _ hn

/-- The average strategy is a distribution over the entries of `strategy_sum`, when these are
nonnegative. -/
theorem get_average_strategy_valid (p : Player) (hn : 0 < p.strategy_sum.length)
    (hnn : ∀ x ∈ p.strategy_sum, 0 ≤ x) :
    ∃ avg, p.get_average_strategy = some (p, avg) ∧
      avg.length = p.strategy_sum.length ∧ (∀ x ∈ avg, 0 ≤ x) ∧ avg.sum = 1 := by
  refine ⟨_, get_average_strategy_eq p, ?_, ?_⟩
  · split_ifs <;> simp
  · by_cases hS : p.strategy_sum.sum ≤ 0
    · rw [if_pos hS]
      exact uniform_valid _ hn
    · rw [if_neg hS]
      exact normalized_valid _ hnn (not_le.mp hS)

/-- C7. Both produced strategies are valid distributions: for a player of a game with
`num_actions > 0` whose `regret_sum` and `strategy_sum` have `num_actions` entries, those of
`strategy_sum` nonnegative, the strategy computed inside `get_action` and the vector returned
by `get_average_strategy` are produced without fault, have length `num_actions`, have every
entry `>= 0`, and sum to exactly 1. -/
theorem strategies_are_distributions (p : Player) (hn : 0 < p.game.num_actions)
    (hr : p.regret_sum.length = p.game.num_actions)
    (hs : p.strategy_sum.length = p.game.num_actions)
    (hnn : ∀ x ∈ p.strategy_sum, 0 ≤ x) :
    (∃ strategy, get_action_strategy p.regret_sum = some strategy ∧
      strategy.length = p.game.num_actions ∧ (∀ x ∈ strategy, 0 ≤ x) ∧ strategy.sum = 1) ∧
    (∃ avg, p.get_average_strategy = some (p, avg) ∧
      avg.length = p.game.num_actions ∧ (∀ x ∈ avg, 0 ≤ x) ∧ avg.sum = 1) := by
  obtain ⟨st, h1, h2, h3, h4⟩ := get_action_strategy_valid p.regret_sum (by omega)
  obtain ⟨avg, g1, g2, g3, g4⟩ := get_average_strategy_valid p (by omega) hnn
  exact ⟨⟨st, h1, by omega, h3, h4⟩, ⟨avg, g1, by omega, g3, g4⟩⟩

/-- C7, at a concrete input: a rock-paper-scissors player with regrets `[3, -2, 1]` and
strategy sums `[2, 1, 1]`. -/
theorem strategies_are_distributions_witness :
    (∃ strategy, get_action_strategy [3, -2, 1] = some strategy ∧
      strategy.length = 3 ∧ (∀ x ∈ strategy, 0 ≤ x) ∧ strategy.sum = 1) ∧
    (∃ avg, (⟨[3, -2, 1], [2, 1, 1], solverGame⟩ : Player).get_average_strategy
        = some (⟨[3, -2, 1], [2, 1, 1], solverGame⟩, avg) ∧
      avg.length = 3 ∧ (∀ x ∈ avg, 0 ≤ x) ∧ avg.sum = 1) :=
  strategies_are_distributions ⟨[3, -2, 1], [2, 1, 1], solverGame⟩
    (by simp [solverGame, solver_action_space])
    (by simp [solverGame, solver_action_space])
    (by simp [solverGame, solver_action_space])
    (by intro x hx; simp at hx; rcases hx with rfl | rfl | rfl <;> norm_num)

/-! ## `Player::compare_strategy` -/

/-- The two nested loops of `compare_strategy`, for any vector `mine` in the place of the
average strategy. -/
theorem compare_loop (g : Game) (ev : Nat → Nat → ℚ) (mine theirs : List ℚ)
    (hev : ∀ a b, a < g.num_actions → b < g.num_actions → g.get_ev a b = some (ev a b))
    (hm : mine.length = g.num_actions) (ht : theirs.length = g.num_actions) :
    forLoop g.num_actions (fun my_action acc =>
      forLoop g.num_actions (fun opp_action acc =>
        (g.get_ev my_action opp_action).bind fun my_ev =>
          (rd mine my_action).bind fun x => (rd theirs opp_action).bind fun y =>
            some (acc + my_ev * (x * y))) acc) 0
      = some (∑ a in Finset.range g.num_actions, ∑ b in Finset.range g.num_actions,
          ev a b * mine.getD a 0 * theirs.getD b 0) := by
  rw [forLoop_sum g.num_actions _
    (fun a => ∑ b in Finset.range g.num_actions, ev a b * mine.getD a 0 * theirs.getD b 0) 0
    (fun a s ha => by
      rw [forLoop_sum g.num_actions _ (fun b => ev a b * mine.getD a 0 * theirs.getD b 0) s
        (fun b s' hb => by
          have ha' : a < mine.length := by omega
          have hb' : b < theirs.length := by omega
          simp only [hev a b ha hb, rd, List.getElem?_eq_getElem ha',
            List.getElem?_eq_getElem hb', Option.some_bind, List.getD_eq_getElem _ _ ha',
            List.getD_eq_getElem _ _ hb', mul_assoc])])]
  rw [zero_add]

/-- The function `compare_strategy` in closed form, for a player with one strategy sum per
action, an opponent strategy with one entry per action, and a game whose `get_ev` is defined on
the action indices. -/
theorem compare_strategy_eq (p : Player) (opp_strategy mine : List ℚ) (ev : Nat → Nat → ℚ)
    (hev : ∀ a b, a < p.game.num_actions → b < p.game.num_actions →
      p.game.get_ev a b = some (ev a b))
    (hs : p.strategy_sum.length = p.game.num_actions)
    (hopp : opp_strategy.length = p.game.num_actions)
    (hmine : p.get_average_strategy = some (p, mine)) :
    p.compare_strategy opp_strategy = some (p,
      ∑ a in Finset.range p.game.num_actions, ∑ b in Finset.range p.game.num_actions,
        ev a b * mine.getD a 0 * opp_strategy.getD b 0) := by
  have hm : mine.length = p.game.num_actions := by
    rw [get_average_strategy_eq] at hmine
    have e := congrArg Prod.snd (Option.some.inj hmine)
    simp only at e
    rw [← e, ← hs]
    split_ifs <;> simp
  unfold Player.compare_strategy
  simp only [bind, pure]
  rw [hmine, Option.some_bind]
  simp only
  rw [compare_loop p.game ev mine opp_strategy hev hm hopp, Option.some_bind]

/-- C8. `Player::compare_strategy(opp_strategy)` returns the double sum over all action pairs
`(a, b)` of `get_ev(a, b) * mine[a] * opp_strategy[b]`, where `mine` is the player's own
`get_average_strategy()` and `opp_strategy` has length `num_actions`; the player has one
strategy sum per action and `get_ev` is defined (with values `ev`) on the action indices.  The
player is returned unmodified. -/
theorem compare_strategy_double_sum (p : Player) (opp_strategy : List ℚ) (ev : Nat → Nat → ℚ)
    (hev : ∀ a b, a < p.game.num_actions → b < p.game.num_actions →
      p.game.get_ev a b = some (ev a b))
    (hs : p.strategy_sum.length = p.game.num_actions)
    (hopp : opp_strategy.length = p.game.num_actions) :
    ∃ mine, p.get_average_strategy = some (p, mine) ∧
      p.compare_strategy opp_strategy = some (p,
        ∑ a in Finset.range p.game.num_actions, ∑ b in Finset.range p.game.num_actions,
          ev a b * mine.getD a 0 * opp_strategy.getD b 0) :=
  ⟨_, get_average_strategy_eq p,
    compare_strategy_eq p opp_strategy _ ev hev hs hopp (get_average_strategy_eq p)⟩

/-- The payoffs of `solver.cpp`, as a table. -/
theorem solver_get_ev_table :
    solver_get_ev 0 0 = some 0 ∧ solver_get_ev 0 1 = some (-2) ∧ solver_get_ev 0 2 = some 1 ∧
    solver_get_ev 1 0 = some 2 ∧ solver_get_ev 1 1 = some 0 ∧ solver_get_ev 1 2 = some (-1) ∧
    solver_get_ev 2 0 = some (-1) ∧ solver_get_ev 2 1 = some 1 ∧ solver_get_ev 2 2 = some 0 := by
  simp [solver_get_ev, rd, solver_action_space]

/-- C8, at a concrete input: a rock-paper-scissors player with strategy sums `[2, 1, 1]`
(average strategy `[1/2, 1/4, 1/4]`) against the opponent strategy `[0, 1, 0]` (always paper)
has expected value `-3/4`. -/
theorem compare_strategy_double_sum_witness :
    (⟨[0, 0, 0], [2, 1, 1], solverGame⟩ : Player).compare_strategy [0, 1, 0]
      = some (⟨[0, 0, 0], [2, 1, 1], solverGame⟩, -3/4) := by
  obtain ⟨mine, h1, h2⟩ := compare_strategy_double_sum ⟨[0, 0, 0], [2, 1, 1], solverGame⟩
    [0, 1, 0] (fun a b => (solver_get_ev a b).getD 0) solver_get_ev_defined
    (by simp [solverGame, solver_action_space]) (by simp [solverGame, solver_action_space])
  rw [get_average_strategy_eq] at h1
  have e := congrArg Prod.snd (Option.some.inj h1)
  simp only at e
  rw [h2, ← e]
  obtain ⟨t00, t01, t02, t10, t11, t12, t20, t21, t22⟩ := solver_get_ev_table
  simp only [solverGame, solver_action_space, List.length_cons, List.length_nil,
    Finset.sum_range_succ, Finset.sum_range_zero, t00, t01, t02, t10, t11, t12, t20, t21, t22]
  norm_num

/-! ## `Player::opponent_best_action_ev` -/

/-- The expected value of action `a` against the distribution `theirs`, over `n` actions:
the sum over `b` of `ev a b * theirs[b]`. -/
theorem action_ev_loop (g : Game) (ev : Nat → Nat → ℚ) (theirs : List ℚ) (a : Nat)
    (hev : ∀ a b, a < g.num_actions → b < g.num_actions → g.get_ev a b = some (ev a b))
    (ht : theirs.length = g.num_actions) (ha : a < g.num_actions) :
    forLoop g.num_actions (fun opp_action cur =>
      (g.get_ev a opp_action).bind fun my_ev =>
        (rd theirs opp_action).bind fun play_probability =>
          some (cur + my_ev * play_probability)) 0
      = some (∑ b in Finset.range g.num_actions, ev a b * theirs.getD b 0) := by
  rw [forLoop_sum g.num_actions _ (fun b => ev a b * theirs.getD b 0) 0
    (fun b s hb => by
      have hb' : b < theirs.length := by omega
      simp only [hev a b ha hb, rd, List.getElem?_eq_getElem hb', Option.some_bind,
        List.getD_eq_getElem _ _ hb'])]
  rw [zero_add]

/-- The function `opponent_best_action_ev` returns the player as it was and the running maximum
started at `0`: a value that is at least `0`, at least the expected value of every action, and
is `0` or the expected value of some action. -/
theorem opponent_best_action_ev_eq (p : Player) (opp_strategy : List ℚ) (ev : Nat → Nat → ℚ)
    (hev : ∀ a b, a < p.game.num_actions → b < p.game.num_actions →
      p.game.get_ev a b = some (ev a b))
    (hopp : opp_strategy.length = p.game.num_actions) :
    ∃ best, p.opponent_best_action_ev opp_strategy = some (p, best) ∧ 0 ≤ best ∧
      (∀ a, a < p.game.num_actions →
        ∑ b in Finset.range p.game.num_actions, ev a b * opp_strategy.getD b 0 ≤ best) ∧
      (best = 0 ∨ ∃ a, a < p.game.num_actions ∧
        best = ∑ b in Finset.range p.game.num_actions, ev a b * opp_strategy.getD b 0) := by
  obtain ⟨best, h1, h2, h3, h4⟩ := forLoop_inv p.game.num_actions
    (fun my_action best_action_ev =>
      (forLoop p.game.num_actions (fun opp_action cur =>
        (p.game.get_ev my_action opp_action).bind fun my_ev =>
          (rd opp_strategy opp_action).bind fun play_probability =>
            some (cur + my_ev * play_probability)) 0).bind fun current_action_ev =>
        some (if best_action_ev ≤ current_action_ev then current_action_ev
          else best_action_ev))
    (fun i best => 0 ≤ best ∧
      (∀ a, a < i →
        ∑ b in Finset.range p.game.num_actions, ev a b * opp_strategy.getD b 0 ≤ best) ∧
      (best = 0 ∨ ∃ a, a < i ∧
        best = ∑ b in Finset.range p.game.num_actions, ev a b * opp_strategy.getD b 0))
    0 ⟨le_refl 0, fun a ha => by omega, Or.inl rfl⟩
    (by
      rintro i best hi ⟨hb0, hub, hatt⟩
      beta_reduce
      rw [action_ev_loop p.game ev opp_strategy i hev hopp hi, Option.some_bind]
      by_cases hc : best ≤ ∑ b in Finset.range p.game.num_actions,
          ev i b * opp_strategy.getD b 0
      · rw [if_pos hc]
        refine ⟨_, rfl, le_trans hb0 hc, ?_, Or.inr ⟨i, by omega, rfl⟩⟩
        intro a ha
        rcases Nat.eq_or_lt_of_le (Nat.lt_succ_iff.mp ha) with e | l
        · rw [e]
        · exact le_trans (hub a l) hc
      · rw [if_neg hc]
        refine ⟨_, rfl, hb0, ?_, ?_⟩
        · intro a ha
          rcases Nat.eq_or_lt_of_le (Nat.lt_succ_iff.mp ha) with e | l
          · rw [e]
            exact (not_le.mp hc).le
          · exact hub a l
        · rcases hatt with h | ⟨a, ha, h⟩
          · exact Or.inl h
          · exact Or.inr ⟨a, by omega, h⟩)
  refine ⟨best, ?_, h2, h3, h4⟩
  unfold Player.opponent_best_action_ev
  simp only [bind, pure]
  rw [h1, Option.some_bind]

/-- C9. `Player::opponent_best_action_ev(theirs)` returns the maximum of `0` and the largest
per-action expected value `sum over b of get_ev(a, b) * theirs[b]`: the value returned is at
least `0`, at least the expected value of every action, and equal to `0` or to the expected
value of some action; hence it is `0` when every action has negative expected value.  Here
`theirs` has one entry per action and `get_ev` is defined (with values `ev`) on the action
indices.  The player is returned unmodified. -/
theorem opponent_best_action_ev_max (p : Player) (theirs : List ℚ) (ev : Nat → Nat → ℚ)
    (hev : ∀ a b, a < p.game.num_actions → b < p.game.num_actions →
      p.game.get_ev a b = some (ev a b))
    (hopp : theirs.length = p.game.num_actions) :
    ∃ best, p.opponent_best_action_ev theirs = some (p, best) ∧ 0 ≤ best ∧
      (∀ a, a < p.game.num_actions →
        ∑ b in Finset.range p.game.num_actions, ev a b * theirs.getD b 0 ≤ best) ∧
      (best = 0 ∨ ∃ a, a < p.game.num_actions ∧
        best = ∑ b in Finset.range p.game.num_actions, ev a b * theirs.getD b 0) ∧
      ((∀ a, a < p.game.num_actions →
        ∑ b in Finset.range p.game.num_actions, ev a b * theirs.getD b 0 < 0) → best = 0) := by
  obtain ⟨best, h1, h2, h3, h4⟩ := opponent_best_action_ev_eq p theirs ev hev hopp
  refine ⟨best, h1, h2, h3, h4, ?_⟩
  intro hneg
  rcases h4 with h | ⟨a, ha, h⟩
  · exact h
  · exact absurd (h ▸ hneg a ha) (not_lt.mpr h2)

/-- C9, at a concrete input: in rock-paper-scissors against the strategy `[0, 1, 0]` (always
paper) the per-action expected values are `-2, 0, 1`, and the value returned is `1`. -/
theorem opponent_best_action_ev_max_witness :
    (⟨[0, 0, 0], [0, 0, 0], solverGame⟩ : Player).opponent_best_action_ev [0, 1, 0]
      = some (⟨[0, 0, 0], [0, 0, 0], solverGame⟩, 1) := by
  obtain ⟨best, h1, _, h3, h4, _⟩ := opponent_best_action_ev_max
    ⟨[0, 0, 0], [0, 0, 0], solverGame⟩ [0, 1, 0] (fun a b => (solver_get_ev a b).getD 0)
    solver_get_ev_defined (by simp [solverGame, solver_action_space])
  obtain ⟨t00, t01, t02, t10, t11, t12, t20, t21, t22⟩ := solver_get_ev_table
  rw [h1]
  have hbest : best = 1 := by
    have h2 := h3 2 (by simp [solverGame, solver_action_space])
    simp only [solverGame, solver_action_space, List.length_cons, List.length_nil,
      Finset.sum_range_succ, Finset.sum_range_zero, t20, t21, t22] at h2
    norm_num at h2
    rcases h4 with h | ⟨a, ha, h⟩
    · rw [h] at h2
      norm_num at h2
    · simp only [solverGame, solver_action_space, List.length_cons, List.length_nil] at ha
      simp only [solverGame, solver_action_space, List.length_cons, List.length_nil,
        Finset.sum_range_succ, Finset.sum_range_zero] at h
      interval_cases a
      · simp only [t00, t01, t02] at h
        norm_num at h
        rw [h] at h2
        norm_num at h2
      · simp only [t10, t11, t12] at h
        norm_num at h
        rw [h] at h2
        norm_num at h2
      · simp only [t20, t21, t22] at h
        norm_num at h
        exact h
  rw [hbest]

/-! ## `Trainer::get_exploitability_p1` -/

/-- The average strategy is produced without fault, with one entry per entry of
`strategy_sum`. -/
theorem get_average_strategy_length (p : Player) :
    ∃ avg, p.get_average_strategy = some (p, avg) ∧ avg.length = p.strategy_sum.length := by
  refine ⟨_, get_average_strategy_eq p, ?_⟩
  split_ifs <;> simp

/-- The function `get_exploitability_p1` from the results of the four calls it makes. -/
theorem get_exploitability_p1_eq (t : Trainer) (avg1 avg2 : List ℚ) (br cs : ℚ)
    (h1 : t.p1.get_average_strategy = some (t.p1, avg1))
    (h2 : t.p2.get_average_strategy = some (t.p2, avg2))
    (h3 : t.p1.compare_strategy avg2 = some (t.p1, cs))
    (h4 : t.p2.opponent_best_action_ev avg1 = some (t.p2, br)) :
    t.get_exploitability_p1 = some (t, br - cs) := by
  unfold Trainer.get_exploitability_p1 Trainer.get_ev_p1 Trainer.get_average_strategy_p1
    Trainer.get_average_strategy_p2
  simp only [bind, pure]
  rw [h2]
  simp only [Option.some_bind]
  rw [h3]
  simp only [Option.some_bind]
  rw [h1]
  simp only [Option.some_bind]
  rw [h4]
  simp only [Option.some_bind]

/-- C10. `Trainer::get_exploitability_p1` returns
`opponent_best_action_ev(avg1) - compare_strategy(avg1, avg2)`: with `avg1` and `avg2` the
average strategies of `p1` and `p2`, `br` the value `p2.opponent_best_action_ev(avg1)` and `cs`
the value `p1.compare_strategy(avg2)`, all four are produced without fault and the result is
`br - cs`; the trainer (both players' `regret_sum` and `strategy_sum`) is returned unmodified.
Both players have one strategy sum per action of their games, which have the same number of
actions and a `get_ev` defined on the action indices. -/
theorem get_exploitability_p1_spec (t : Trainer) (ev1 ev2 : Nat → Nat → ℚ)
    (hev1 : ∀ a b, a < t.p1.game.num_actions → b < t.p1.game.num_actions →
      t.p1.game.get_ev a b = some (ev1 a b))
    (hev2 : ∀ a b, a < t.p2.game.num_actions → b < t.p2.game.num_actions →
      t.p2.game.get_ev a b = some (ev2 a b))
    (hn : t.p2.game.num_actions = t.p1.game.num_actions)
    (hs1 : t.p1.strategy_sum.length = t.p1.game.num_actions)
    (hs2 : t.p2.strategy_sum.length = t.p2.game.num_actions) :
    ∃ avg1 avg2 br cs,
      t.p1.get_average_strategy = some (t.p1, avg1) ∧
      t.p2.get_average_strategy = some (t.p2, avg2) ∧
      t.p2.opponent_best_action_ev avg1 = some (t.p2, br) ∧
      t.p1.compare_strategy avg2 = some (t.p1, cs) ∧
      t.get_exploitability_p1 = some (t, br - cs) := by
  obtain ⟨avg1, a1, l1⟩ := get_average_strategy_length t.p1
  obtain ⟨avg2, a2, l2⟩ := get_average_strategy_length t.p2
  have c := compare_strategy_eq t.p1 avg2 avg1 ev1 hev1 hs1 (by omega) a1
  obtain ⟨br, b1, _⟩ := opponent_best_action_ev_eq t.p2 avg1 ev2 hev2 (by omega)
  exact ⟨avg1, avg2, br, _, a1, a2, b1, c, get_exploitability_p1_eq t avg1 avg2 br _ a1 a2 c b1⟩

/-- C10, at a concrete input: two rock-paper-scissors players with strategy sums `[2, 1, 1]`
and `[0, 1, 0]`. -/
theorem get_exploitability_p1_spec_witness :
    ∃ v, (⟨⟨[0, 0, 0], [2, 1, 1], solverGame⟩, ⟨[0, 0, 0], [0, 1, 0], solverGame⟩⟩ :
      Trainer).get_exploitability_p1
        = some (⟨⟨[0, 0, 0], [2, 1, 1], solverGame⟩, ⟨[0, 0, 0], [0, 1, 0], solverGame⟩⟩, v) := by
  obtain ⟨_, _, br, cs, _, _, _, _, h⟩ := get_exploitability_p1_spec
    ⟨⟨[0, 0, 0], [2, 1, 1], solverGame⟩, ⟨[0, 0, 0], [0, 1, 0], solverGame⟩⟩
    (fun a b => (solver_get_ev a b).getD 0) (fun a b => (solver_get_ev a b).getD 0)
    solver_get_ev_defined solver_get_ev_defined rfl
    (by simp [solverGame, solver_action_space]) (by simp [solverGame, solver_action_space])
  exact ⟨br - cs, h⟩

/-! ## `Trainer::train` -/

/-- The function `get_action` uses the engine for one draw only: it is its deterministic part
followed by the scan with the value drawn. -/
theorem get_action_factor (p : Player) (mt : Mt) :
    p.get_action mt = p.get_action_core.map
      (fun c => (c.1, ⟨mt.draws, mt.pos + 1⟩, sampleWith c.2 (mt.draws mt.pos))) := by
  unfold Player.get_action Player.get_action_core get_action_from_strategy Mt.dist
  simp only [bind, pure]
  cases get_action_strategy p.regret_sum with
  | none => rfl
  | some strategy =>
    simp only [Option.some_bind]
    cases forLoop strategy.length (fun i ss =>
      (rd ss i).bind fun x => (rd strategy i).bind fun y => wr ss i (x + y)) p.strategy_sum with
    | none => rfl
    | some ss => rfl

/-- The body of the training loop is one round on the next two draws, the first for `p1` and
the second for `p2`, and leaves the engine two draws further. -/
theorem train_body_eq (s : Trainer × Mt) :
    Trainer.train_body s =
      (s.1.round_of_draws (s.2.draws s.2.pos) (s.2.draws (s.2.pos + 1))).map
        (fun t' => (t', ⟨s.2.draws, s.2.pos + 2⟩)) := by
  unfold Trainer.train_body Trainer.round_of_draws
  simp only [bind, pure]
  rw [get_action_factor]
  cases s.1.p1.get_action_core with
  | none => rfl
  | some c1 =>
    simp only [Option.map_some', Option.some_bind]
    rw [get_action_factor]
    cases s.1.p2.get_action_core with
    | none => rfl
    | some c2 =>
      simp only [Option.map_some', Option.some_bind]
      cases c1.1.update_regrets (sampleWith c1.2 (s.2.draws s.2.pos))
          (sampleWith c2.2 (s.2.draws (s.2.pos + 1))) with
      | none => rfl
      | some p1 =>
        simp only [Option.some_bind]
        cases c2.1.update_regrets (sampleWith c2.2 (s.2.draws (s.2.pos + 1)))
            (sampleWith c1.2 (s.2.draws s.2.pos)) with
        | none => rfl
        | some p2 => rfl

/-- The training loop of `k` iterations is `k` rounds on the next `2 * k` draws. -/
theorem train_loop_eq (t : Trainer) (mt : Mt) :
    ∀ k, forLoop k (fun _ s => Trainer.train_body s) (t, mt) =
      (t.rounds_of_draws mt.draws mt.pos k).map (fun t' => (t', ⟨mt.draws, mt.pos + 2 * k⟩)) := by
  intro k
  induction k with
  | zero => rfl
  | succ k ih =>
    rw [forLoop_succ, ih, Trainer.rounds_of_draws]
    cases t.rounds_of_draws mt.draws mt.pos k with
    | none => rfl
    | some t' =>
      simp only [Option.map_some', Option.some_bind]
      rw [train_body_eq]
      rfl

/-- The rounds depend on the sequence of draws through the draws they consume only. -/
theorem rounds_of_draws_congr (t : Trainer) (d d2 : Nat → ℚ) (pos : Nat) :
    ∀ k, (∀ j, j < 2 * k → d2 (pos + j) = d (pos + j)) →
      t.rounds_of_draws d2 pos k = t.rounds_of_draws d pos k := by
  intro k
  induction k with
  | zero => intro _; rfl
  | succ k ih =>
    intro h
    rw [Trainer.rounds_of_draws, Trainer.rounds_of_draws, ih (fun j hj => h j (by omega)),
      h (2 * k) (by omega)]
    have e := h (2 * k + 1) (by omega)
    rw [← Nat.add_assoc] at e
    rw [e]

/-- The deterministic part of `get_action`, for a player whose `strategy_sum` is as long as its
`regret_sum` (of positive length): it succeeds, the strategy is a distribution, and it has been
added, entry by entry, into `strategy_sum`; nothing else changes. -/
theorem get_action_core_eq (p : Player) (n : Nat) (hn : 0 < n)
    (hr : p.regret_sum.length = n) (hs : p.strategy_sum.length = n) :
    ∃ ss strategy, p.get_action_core = some ({ p with strategy_sum := ss }, strategy) ∧
      get_action_strategy p.regret_sum = some strategy ∧
      ss.length = n ∧ strategy.length = n ∧ (∀ x ∈ strategy, 0 ≤ x) ∧ strategy.sum = 1 ∧
      (∀ j, j < n → ss[j]? = p.strategy_sum[j]?.map (fun x => x + strategy.getD j 0)) := by
  obtain ⟨strategy, h1, h2, h3, h4⟩ := get_action_strategy_valid p.regret_sum (by omega)
  obtain ⟨ss, g1, g2, g3, _⟩ := forLoop_update p.strategy_sum strategy.length (by omega)
    (fun i ss => (rd ss i).bind fun x => (rd strategy i).bind fun y => wr ss i (x + y))
    (fun j x => x + strategy.getD j 0)
    (fun i st x hi hx => by
      simp only [hx, Option.some_bind]
      simp [rd, List.getElem?_eq_getElem hi, List.getD_eq_getElem _ _ hi])
  refine ⟨ss, strategy, ?_, h1, by omega, by omega, h3, h4, fun j hj => g3 j (by omega)⟩
  unfold Player.get_action_core
  rw [h1, Option.some_bind, g1, Option.some_bind]

/-- The scan returns an index of the vector when the vector is a distribution and the draw is
in `[0,1)`. -/
theorem sampleWith_lt (strategy : List ℚ) (r : ℚ) (hn : 0 < strategy.length)
    (hsum : strategy.sum = 1) (hr1 : r < 1) :
    sampleWith strategy r < strategy.length := by
  unfold sampleWith
  by_cases h : (0 : ℚ) < r
  · obtain ⟨_, h2, h3, _⟩ :=
      sampleLoop_spec strategy r strategy.length 0 0 (by omega) (by omega) (by simp) h
    by_contra hge
    have he : sampleLoop strategy r 0 0 = strategy.length := by omega
    have hlast := h3 (strategy.length - 1) (by omega) (by omega)
    have e : strategy.length - 1 + 1 = strategy.length := by omega
    rw [e, List.take_length, hsum] at hlast
    exact absurd hr1 (not_lt.mpr hlast.le)
  · rw [sampleLoop_done strategy r 0 0 h]
    exact hn

/-- One round keeps both players fit for the game and succeeds, when the draws are in
`[0,1)`. -/
theorem round_of_draws_wf (t : Trainer) (n : Nat) (ev1 ev2 : Nat → Nat → ℚ) (r1 r2 : ℚ)
    (hn : 0 < n) (h1 : t.p1.WellFormed n ev1) (h2 : t.p2.WellFormed n ev2)
    (hr1 : r1 < 1) (hr2 : r2 < 1) :
    ∃ t', t.round_of_draws r1 r2 = some t' ∧ t'.p1.WellFormed n ev1 ∧
      t'.p2.WellFormed n ev2 := by
  obtain ⟨hr, hs, hg, hev⟩ := h1
  obtain ⟨hr', hs', hg', hev'⟩ := h2
  obtain ⟨ss1, st1, c1, _, l1, m1, _, s1, _⟩ := get_action_core_eq t.p1 n hn hr hs
  obtain ⟨ss2, st2, c2, _, l2, m2, _, s2, _⟩ := get_action_core_eq t.p2 n hn hr' hs'
  have a1 : sampleWith st1 r1 < n := by
    have := sampleWith_lt st1 r1 (by omega) s1 hr1
    omega
  have a2 : sampleWith st2 r2 < n := by
    have := sampleWith_lt st2 r2 (by omega) s2 hr2
    omega
  obtain ⟨rs1, u1, v1, _⟩ := update_regrets_eq { t.p1 with strategy_sum := ss1 }
    (sampleWith st1 r1) (sampleWith st2 r2) ev1 (by simpa using hr.trans hg.symm)
    (by simpa [hg] using hev) (by simpa [hg] using a1) (by simpa [hg] using a2)
  obtain ⟨rs2, u2, v2, _⟩ := update_regrets_eq { t.p2 with strategy_sum := ss2 }
    (sampleWith st2 r2) (sampleWith st1 r1) ev2 (by simpa using hr'.trans hg'.symm)
    (by simpa [hg'] using hev') (by simpa [hg'] using a2) (by simpa [hg'] using a1)
  simp only at u1 v1 u2 v2
  refine ⟨⟨⟨rs1, ss1, t.p1.game⟩, ⟨rs2, ss2, t.p2.game⟩⟩, ?_, ⟨?_, ?_, ?_, ?_⟩, ⟨?_, ?_, ?_, ?_⟩⟩
  · unfold Trainer.round_of_draws
    rw [c1, Option.some_bind, c2, Option.some_bind]
    simp only
    rw [u1, Option.some_bind, u2, Option.some_bind]
  · show rs1.length = n
    rw [v1]
    exact hr
  · exact l1
  · exact hg
  · exact hev
  · show rs2.length = n
    rw [v2]
    exact hr'
  · exact l2
  · exact hg'
  · exact hev'

/-- Any number of rounds succeeds and keeps both players fit for the game, when the draws are
in `[0,1)`. -/
theorem rounds_of_draws_wf (t : Trainer) (n : Nat) (ev1 ev2 : Nat → Nat → ℚ)
    (draws : Nat → ℚ) (pos : Nat) (hn : 0 < n)
    (h1 : t.p1.WellFormed n ev1) (h2 : t.p2.WellFormed n ev2) (hd : ∀ k, draws k < 1) :
    ∀ k, ∃ t', t.rounds_of_draws draws pos k = some t' ∧ t'.p1.WellFormed n ev1 ∧
      t'.p2.WellFormed n ev2 := by
  intro k
  induction k with
  | zero => exact ⟨t, rfl, h1, h2⟩
  | succ k ih =>
    obtain ⟨t', e, w1, w2⟩ := ih
    obtain ⟨t'', e', w1', w2'⟩ := round_of_draws_wf t' n ev1 ev2 _ _ hn w1 w2
      (hd (pos + 2 * k)) (hd (pos + 2 * k + 1))
    refine ⟨t'', ?_, w1', w2'⟩
    rw [Trainer.rounds_of_draws, e, Option.some_bind, e']

/-- The body of the training loop, call by call. -/
theorem train_body_calls (s : Trainer × Mt) :
    Trainer.train_body s =
      (s.1.p1.get_action s.2).bind fun r1 =>
        (s.1.p2.get_action r1.2.1).bind fun r2 =>
          (r1.1.update_regrets r1.2.2 r2.2.2).bind fun p1 =>
            (r2.1.update_regrets r2.2.2 r1.2.2).bind fun p2 =>
              some ({ p1 := p1, p2 := p2 }, r2.2.1) := by
  unfold Trainer.train_body
  simp only [bind, pure]

/-- One call of `get_action` consumes exactly one draw, the next one, and samples with it from
the strategy computed from `regret_sum`. -/
theorem get_action_draw (p : Player) (m : Mt) (r : Player × Mt × Nat)
    (h : p.get_action m = some r) :
    r.2.1 = ⟨m.draws, m.pos + 1⟩ ∧
      ∃ strategy, get_action_strategy p.regret_sum = some strategy ∧
        r.2.2 = sampleWith strategy (m.draws m.pos) := by
  unfold Player.get_action get_action_from_strategy Mt.dist at h
  simp only [bind, pure] at h
  cases hs : get_action_strategy p.regret_sum with
  | none => simp [hs] at h
  | some strategy =>
    rw [hs, Option.some_bind] at h
    cases hl : forLoop strategy.length (fun i ss =>
      (rd ss i).bind fun x => (rd strategy i).bind fun y => wr ss i (x + y)) p.strategy_sum with
    | none => simp [hl] at h
    | some ss =>
      rw [hl, Option.some_bind] at h
      have e := Option.some.inj h
      rw [← e]
      exact ⟨rfl, strategy, rfl, rfl⟩

/-- C3. `Trainer::train(N)` performs exactly `N` rounds: none when `N <= 0`, the trainer and
the engine being returned as they were; and `train(N + 1)` is `train(N)` followed by one round
made of `p1.get_action`, `p2.get_action`, `p1.update_regrets(p1_action, p2_action)` and
`p2.update_regrets(p2_action, p1_action)`, in this order.  Each `get_action` consumes exactly
one draw, the next one, so a run that returns has consumed exactly `2 * N` draws, `p1`'s before
`p2`'s in every round.  The players after training depend on the initial players and on the
draws consumed alone: two engines at the same position whose next `2 * N` draws are the same
give the same result.  The run returns for players fit for the same number `n > 0` of actions
and draws below 1. -/
theorem train_rounds (t : Trainer) (mt : Mt) :
    (∀ N : ℤ, N ≤ 0 → t.train N mt = some (t, mt)) ∧
    (∀ N : ℤ, 0 ≤ N → t.train (N + 1) mt = (t.train N mt).bind fun s =>
      (s.1.p1.get_action s.2).bind fun r1 =>
        (s.1.p2.get_action r1.2.1).bind fun r2 =>
          (r1.1.update_regrets r1.2.2 r2.2.2).bind fun p1 =>
            (r2.1.update_regrets r2.2.2 r1.2.2).bind fun p2 =>
              some ({ p1 := p1, p2 := p2 }, r2.2.1)) ∧
    (∀ (p : Player) (m : Mt) (r : Player × Mt × Nat), p.get_action m = some r →
      r.2.1 = ⟨m.draws, m.pos + 1⟩ ∧
        ∃ strategy, get_action_strategy p.regret_sum = some strategy ∧
          r.2.2 = sampleWith strategy (m.draws m.pos)) ∧
    (∀ (N : ℤ) (s : Trainer × Mt), t.train N mt = some s →
      s.2.draws = mt.draws ∧ s.2.pos = mt.pos + 2 * N.toNat) ∧
    (∀ (N : ℤ) (mt2 : Mt), mt2.pos = mt.pos →
      (∀ j, j < 2 * N.toNat → mt2.draws (mt.pos + j) = mt.draws (mt.pos + j)) →
      (t.train N mt2).map Prod.fst = (t.train N mt).map Prod.fst) ∧
    (∀ (n : Nat) (ev1 ev2 : Nat → Nat → ℚ) (N : ℤ), 0 < n →
      t.p1.WellFormed n ev1 → t.p2.WellFormed n ev2 → (∀ k, mt.draws k < 1) →
      ∃ s, t.train N mt = some s) := by
  refine ⟨?_, ?_, get_action_draw, ?_, ?_, ?_⟩
  · intro N hN
    unfold Trainer.train
    rw [Int.toNat_eq_zero.mpr hN]
    rfl
  · intro N hN
    unfold Trainer.train
    have e : (N + 1).toNat = N.toNat + 1 := by omega
    rw [e, forLoop_succ]
    congr 1
  · intro N s h
    unfold Trainer.train at h
    rw [train_loop_eq] at h
    cases hr : t.rounds_of_draws mt.draws mt.pos N.toNat with
    | none => simp [hr] at h
    | some t' =>
      rw [hr] at h
      have e := Option.some.inj h
      rw [← e]
      exact ⟨rfl, rfl⟩
  · intro N mt2 hpos hd
    unfold Trainer.train
    rw [train_loop_eq, train_loop_eq, hpos, rounds_of_draws_congr t mt.draws mt2.draws mt.pos _ hd]
    simp only [Option.map_map]
    rfl
  · intro n ev1 ev2 N hn h1 h2 hd
    obtain ⟨t', e, _⟩ := rounds_of_draws_wf t n ev1 ev2 mt.draws mt.pos hn h1 h2 hd N.toNat
    unfold Trainer.train
    rw [train_loop_eq, e]
    exact ⟨_, rfl⟩

/-- The freshly constructed player of the rock-paper-scissors game is fit for it. -/
theorem solver_player_wf :
    (Player.mk_from solverGame).WellFormed 3 (fun a b => (solver_get_ev a b).getD 0) :=
  ⟨rfl, rfl, rfl, fun a b ha hb => solver_get_ev_defined a b ha hb⟩

/-- C3, at a concrete input: two fresh rock-paper-scissors players, two rounds, every draw
`1/2`; the run returns, four draws further. -/
theorem train_rounds_witness :
    ∃ s, (⟨Player.mk_from solverGame, Player.mk_from solverGame⟩ : Trainer).train 2
        ⟨fun _ => 1/2, 0⟩ = some s ∧ s.2.pos = 4 := by
  obtain ⟨_, _, _, h4, _, h6⟩ :=
    train_rounds ⟨Player.mk_from solverGame, Player.mk_from solverGame⟩ ⟨fun _ => 1/2, 0⟩
  obtain ⟨s, hs⟩ := h6 3 _ _ 2 (by norm_num) solver_player_wf solver_player_wf
    (fun _ => by norm_num)
  refine ⟨s, hs, ?_⟩
  have := (h4 2 s hs).2
  simpa using this

/-! ## The payoffs of `solver.cpp` -/

/-- C11. The rock-paper-scissors `Game::get_ev` is zero-sum with the stated payoffs: the game
has the three actions rock = 0, paper = 1, scissors = 2; `get_ev(rock, paper) = -2`,
`get_ev(rock, scissors) = 1`, `get_ev(paper, scissors) = -1`; `get_ev(x, x) = 0` for every
action `x`; and `get_ev(a, b) = -get_ev(b, a)` for all actions `a`, `b`. -/
theorem solver_get_ev_zero_sum :
    solverGame.num_actions = 3 ∧
    rd solver_action_space 0 = some "rock" ∧ rd solver_action_space 1 = some "paper" ∧
    rd solver_action_space 2 = some "scissors" ∧
    solverGame.get_ev 0 1 = some (-2) ∧ solverGame.get_ev 0 2 = some 1 ∧
    solverGame.get_ev 1 2 = some (-1) ∧
    (∀ x, x < solverGame.num_actions → solverGame.get_ev x x = some 0) ∧
    (∀ a b, a < solverGame.num_actions → b < solverGame.num_actions →
      ∃ u v, solverGame.get_ev a b = some u ∧ solverGame.get_ev b a = some v ∧ u = -v) := by
  obtain ⟨t00, t01, t02, t10, t11, t12, t20, t21, t22⟩ := solver_get_ev_table
  have hn : solverGame.num_actions = 3 := rfl
  refine ⟨hn, rfl, rfl, rfl, t01, t02, t12, ?_, ?_⟩
  · intro x hx
    rw [hn] at hx
    show solver_get_ev x x = some 0
    interval_cases x
    · exact t00
    · exact t11
    · exact t22
  · intro a b ha hb
    rw [hn] at ha hb
    show ∃ u v, solver_get_ev a b = some u ∧ solver_get_ev b a = some v ∧ u = -v
    interval_cases a <;> interval_cases b
    · exact ⟨_, _, t00, t00, by norm_num⟩
    · exact ⟨_, _, t01, t10, by norm_num⟩
    · exact ⟨_, _, t02, t20, by norm_num⟩
    · exact ⟨_, _, t10, t01, by norm_num⟩
    · exact ⟨_, _, t11, t11, by norm_num⟩
    · exact ⟨_, _, t12, t21, by norm_num⟩
    · exact ⟨_, _, t20, t02, by norm_num⟩
    · exact ⟨_, _, t21, t12, by norm_num⟩
    · exact ⟨_, _, t22, t22, by norm_num⟩

/-! ## The action space of `blotto.cpp` -/

/-- C12. The Blotto `Game` as constructed (2 towers with values `{1, 2}`, 5 troops) has
`num_actions = 6` and `action_space` exactly `[(0,5), (1,4), (2,3), (3,2), (4,1), (5,0)]`, in
that order. -/
theorem blotto_game_as_constructed :
    ∃ g, Blotto.Game.new = some g ∧ g.tower_values = [1, 2] ∧ g.num_actions = 6 ∧
      g.action_space = [[0, 5], [1, 4], [2, 3], [3, 2], [4, 1], [5, 0]] :=
  ⟨⟨6, [[0, 5], [1, 4], [2, 3], [3, 2], [4, 1], [5, 0]], [1, 2]⟩, rfl, rfl, rfl, rfl⟩

/-- The constructed Blotto game, helper form of its fields. -/
theorem blotto_new_eq :
    Blotto.Game.new =
      some ⟨6, [[0, 5], [1, 4], [2, 3], [3, 2], [4, 1], [5, 0]], [1, 2]⟩ := rfl

/-- Writing entry `i` leaves the first `i` entries. -/
theorem take_set_self (c : List ℤ) (i : Nat) (x : ℤ) : (c.set i x).take i = c.take i := by
  induction c generalizing i with
  | nil => simp
  | cons a t ih =>
    cases i with
    | zero => simp
    | succ i => simp [ih]

/-- The first `i + 1` entries after writing entry `i`. -/
theorem take_succ_set (c : List ℤ) (i : Nat) (x : ℤ) (h : i < c.length) :
    (c.set i x).take (i + 1) = c.take i ++ [x] := by
  induction c generalizing i with
  | nil => simp at h
  | cons a t ih =>
    cases i with
    | zero => simp
    | succ i =>
      simp only [List.length_cons, Nat.add_lt_add_iff_right] at h
      simp [ih i h]

/-- The recursive lambda `generate` in closed form.  Called at a tower `index` of the `K` towers
with a vector `current` of length `K` and a depth bound that covers the remaining towers, it
returns; it has appended to `actions`, in the order of the generation rule, the vectors made of
the first `index` entries of `current` followed by a split of `remaining` among the remaining
towers; and it leaves in `current` a vector of length `K` with the same first `index`
entries. -/
theorem generate_eq (K : Nat) :
    ∀ (depth index : Nat) (remaining : ℤ) (current : List ℤ) (actions : List (List ℤ)),
      index < K → current.length = K → K - index ≤ depth →
      ∃ current', Blotto.generate K depth index remaining (current, actions) =
          some (current', actions ++
            (Blotto.splits (K - 1 - index) remaining).map (fun w => current.take index ++ w)) ∧
        current'.length = K ∧ current'.take index = current.take index := by
  intro depth
  induction depth with
  | zero =>
    intro index remaining current actions hi _ hd
    omega
  | succ d ih =>
    intro index remaining current actions hi hlen hd
    rw [Blotto.generate]
    by_cases hlast : index + 1 = K
    · rw [if_pos hlast]
      have hz : K - 1 - index = 0 := by omega
      have hset : current.set index remaining = current.take index ++ [remaining] := by
        have := take_succ_set current index remaining (by omega)
        rwa [List.take_of_length_le (by simp; omega)] at this
      refine ⟨current.set index remaining, ?_, by simpa using hlen, take_set_self _ _ _⟩
      rw [hz, Blotto.splits]
      simp only [wr_eq_some current index remaining (by omega), Option.some_bind,
        List.map_cons, List.map_nil, hset]
    · rw [if_neg hlast]
      obtain ⟨m, hm⟩ : ∃ m, K - 1 - index = m + 1 := ⟨K - 1 - index - 1, by omega⟩
      have hm' : K - 1 - (index + 1) = m := by omega
      rw [hm, Blotto.splits]
      have h := forLoop_inv (remaining + 1).toNat (fun i (st : List ℤ × List (List ℤ)) =>
          (wr st.1 index (i : ℤ)).bind fun current =>
            Blotto.generate K d (index + 1) (remaining - (i : ℤ)) (current, st.2))
        (fun i st => st.1.length = K ∧ st.1.take index = current.take index ∧
          st.2 = actions ++ ((List.range i).flatMap fun j =>
            (Blotto.splits m (remaining - (j : ℤ))).map fun w => (j : ℤ) :: w).map
              (fun w => current.take index ++ w))
        (current, actions) ⟨hlen, rfl, by simp⟩
        (by
          rintro i ⟨c, acts⟩ _ ⟨hc, htake, hacts⟩
          simp only at hc htake hacts
          obtain ⟨c', e, hc', htake'⟩ := ih (index + 1) (remaining - (i : ℤ))
            (c.set index (i : ℤ)) acts (by omega) (by simpa using hc) (by omega)
          rw [take_succ_set c index (i : ℤ) (by omega)] at e htake'
          refine ⟨(c', acts ++ List.map (fun w => List.take index c ++ [(i : ℤ)] ++ w)
            (Blotto.splits (K - 1 - (index + 1)) (remaining - (i : ℤ)))), ?_, hc', ?_, ?_⟩
          · simp only [wr_eq_some c index (i : ℤ) (by omega), Option.some_bind]
            exact e
          · have := congrArg (List.take index) htake'
            rw [List.take_take, List.take_append_of_le_length (by simp; omega),
              List.take_take] at this
            simpa [htake] using this
          · simp only
            rw [hacts, hm', List.range_succ, List.flatMap_append, List.map_append,
              List.append_assoc, htake]
            simp)
      obtain ⟨⟨c', acts'⟩, e, hc', htake', hacts'⟩ := h
      simp only at hc' htake' hacts'
      exact ⟨c', by rw [e, hacts'], hc', htake'⟩

/-- The members of `splits m T`, for `T >= 0`: exactly the vectors of `m + 1` nonnegative
integers that sum to `T`. -/
theorem splits_mem (m : Nat) :
    ∀ (T : ℤ), 0 ≤ T → ∀ v : List ℤ,
      v ∈ Blotto.splits m T ↔ v.length = m + 1 ∧ (∀ x ∈ v, 0 ≤ x) ∧ v.sum = T := by
  induction m with
  | zero =>
    intro T hT v
    rw [Blotto.splits, List.mem_singleton]
    constructor
    · rintro rfl
      simpa using hT
    · rintro ⟨hl, _, hs⟩
      match v, hl with
      | [x], _ =>
        simp only [List.sum_cons, List.sum_nil, add_zero] at hs
        rw [hs]
  | succ m ih =>
    intro T hT v
    rw [Blotto.splits, List.mem_flatMap]
    constructor
    · rintro ⟨i, hi, hv⟩
      obtain ⟨w, hw, rfl⟩ := List.mem_map.mp hv
      have hiT : (i : ℤ) ≤ T := by
        have := List.mem_range.mp hi
        omega
      obtain ⟨h1, h2, h3⟩ := (ih (T - (i : ℤ)) (by omega) w).mp hw
      refine ⟨by simp [h1], ?_, ?_⟩
      · intro x hx
        rcases List.mem_cons.mp hx with rfl | hx
        · exact Int.natCast_nonneg i
        · exact h2 x hx
      · rw [List.sum_cons, h3]
        ring
    · rintro ⟨hl, hnn, hs⟩
      match v, hl with
      | x :: w, hl =>
        have hx : 0 ≤ x := hnn x (List.mem_cons_self _ _)
        have hw : 0 ≤ w.sum := List.sum_nonneg (fun y hy => hnn y (List.mem_cons_of_mem _ hy))
        rw [List.sum_cons] at hs
        refine ⟨x.toNat, List.mem_range.mpr (by omega), ?_⟩
        rw [Int.toNat_of_nonneg hx]
        refine List.mem_map.mpr ⟨w, ?_, rfl⟩
        refine (ih (T - x) (by omega) w).mpr ⟨by simpa using hl, ?_, by omega⟩
        intro y hy
        exact hnn y (List.mem_cons_of_mem _ hy)

/-- The generation rule produces no vector twice. -/
theorem splits_nodup (m : Nat) : ∀ (T : ℤ), (Blotto.splits m T).Nodup := by
  induction m with
  | zero =>
    intro T
    rw [Blotto.splits]
    exact List.nodup_singleton _
  | succ m ih =>
    intro T
    rw [Blotto.splits, List.nodup_flatMap]
    constructor
    · intro i _
      exact (ih (T - (i : ℤ))).map (fun a b h => List.tail_eq_of_cons_eq h)
    · refine (List.nodup_range _).pairwise_of_forall_ne ?_
      intro i _ j _ hij
      show List.Disjoint _ _
      intro v hv1 hv2
      obtain ⟨w1, _, rfl⟩ := List.mem_map.mp hv1
      obtain ⟨w2, _, e⟩ := List.mem_map.mp hv2
      have := List.head_eq_of_cons_eq e
      exact hij (by exact_mod_cast this.symm)

/-- The hockey-stick sum in the order of the generation rule. -/
theorem sum_choose_reflect (m : Nat) :
    ∀ n : Nat, ((List.range (n + 1)).map (fun i => Nat.choose (n - i + m) m)).sum
      = Nat.choose (n + m + 1) (m + 1) := by
  intro n
  induction n with
  | zero => simp
  | succ n ih =>
    rw [List.range_succ_eq_map, List.map_cons, List.sum_cons, List.map_map]
    have e : ((fun i => Nat.choose (n + 1 - i + m) m) ∘ Nat.succ)
        = fun i => Nat.choose (n - i + m) m := by
      funext i
      simp [Nat.succ_eq_add_one]
    rw [e, ih, Nat.sub_zero]
    have p := Nat.choose_succ_succ' (n + 1 + m) m
    have q : n + m + 1 = n + 1 + m := by omega
    rw [p, q]

/-- The number of splits of `n` troops among `m + 1` towers. -/
theorem splits_length (m : Nat) :
    ∀ n : Nat, (Blotto.splits m (n : ℤ)).length = Nat.choose (n + m) m := by
  induction m with
  | zero =>
    intro n
    simp [Blotto.splits]
  | succ m ih =>
    intro n
    rw [Blotto.splits, List.length_flatMap]
    have hr : ((n : ℤ) + 1).toNat = n + 1 := by omega
    rw [hr]
    have e : List.map (List.length ∘ fun (i : Nat) =>
          (Blotto.splits m ((n : ℤ) - (i : ℤ))).map fun w => (i : ℤ) :: w) (List.range (n + 1))
        = List.map (fun i => Nat.choose (n - i + m) m) (List.range (n + 1)) := by
      apply List.map_congr_left
      intro i hi
      have hi' : i ≤ n := by
        have := List.mem_range.mp hi
        omega
      have hc : (n : ℤ) - (i : ℤ) = ((n - i : Nat) : ℤ) := by omega
      simp only [Function.comp, List.length_map, hc, ih]
    rw [e, sum_choose_reflect, Nat.add_assoc]

/-- The function `generate_action_space` in closed form, for at least one tower: with any depth
bound of at least the number of towers the recursion returns the splits of the troops among the
towers, in the order of the generation rule. -/
theorem generate_action_space_with_eq (tower_values : List ℤ) (num_troops : ℤ)
    (hK : 1 ≤ tower_values.length) :
    (∀ depth, tower_values.length ≤ depth →
      (Blotto.generate tower_values.length depth 0 num_troops
        (List.replicate tower_values.length 0, [])).map Prod.snd
        = some (Blotto.splits (tower_values.length - 1) num_troops)) ∧
    Blotto.generate_action_space_with tower_values num_troops
      = some (Blotto.splits (tower_values.length - 1) num_troops) := by
  have key : ∀ depth, tower_values.length ≤ depth →
      (Blotto.generate tower_values.length depth 0 num_troops
        (List.replicate tower_values.length 0, [])).map Prod.snd
        = some (Blotto.splits (tower_values.length - 1) num_troops) := by
    intro depth hd
    obtain ⟨c', e, _, _⟩ := generate_eq tower_values.length depth 0 num_troops
      (List.replicate tower_values.length 0) [] (by omega) (by simp) (by omega)
    rw [e]
    simp
  refine ⟨key, ?_⟩
  have h := key tower_values.length (le_refl _)
  unfold Blotto.generate_action_space_with
  simp only
  cases hg : Blotto.generate tower_values.length tower_values.length 0 num_troops
      (List.replicate tower_values.length 0, []) with
  | none => simp [hg] at h
  | some st =>
    rw [hg] at h
    simpa using h

/-- C13. The Blotto generator, `generate_action_space` over `K >= 1` towers and `T >= 0`
troops, terminates (with every bound of at least `K` on the depth of the recursion it returns,
and returns the same list) and returns, without duplicates, every vector of `K` nonnegative
integers that sum to `T`, and nothing else; the action space has `C(T + K - 1, K - 1)`
entries. -/
theorem generate_action_space_all_splits (tower_values : List ℤ) (num_troops : ℤ)
    (hK : 1 ≤ tower_values.length) (hT : 0 ≤ num_troops) :
    ∃ actions, Blotto.generate_action_space_with tower_values num_troops = some actions ∧
      (∀ depth, tower_values.length ≤ depth →
        (Blotto.generate tower_values.length depth 0 num_troops
          (List.replicate tower_values.length 0, [])).map Prod.snd = some actions) ∧
      actions.Nodup ∧
      (∀ v : List ℤ, v ∈ actions ↔
        v.length = tower_values.length ∧ (∀ x ∈ v, 0 ≤ x) ∧ v.sum = num_troops) ∧
      actions.length =
        Nat.choose (num_troops.toNat + tower_values.length - 1) (tower_values.length - 1) := by
  obtain ⟨h1, h2⟩ := generate_action_space_with_eq tower_values num_troops hK
  refine ⟨_, h2, h1, splits_nodup _ _, ?_, ?_⟩
  · intro v
    rw [splits_mem (tower_values.length - 1) num_troops hT v]
    have e : tower_values.length - 1 + 1 = tower_values.length := by omega
    rw [e]
  · have hc : num_troops = ((num_troops.toNat : Nat) : ℤ) := by omega
    have e : num_troops.toNat + tower_values.length - 1
        = num_troops.toNat + (tower_values.length - 1) := by omega
    rw [e, ← splits_length]
    rw [← hc]

/-- C13, at a concrete input: the towers `{1, 2}` and 5 troops, where the action space has
`C(6, 1) = 6` entries, `(2, 3)` among them and `(3, 3)` not. -/
theorem generate_action_space_all_splits_witness :
    ∃ actions, Blotto.generate_action_space_with [1, 2] 5 = some actions ∧
      actions.length = 6 ∧ [2, 3] ∈ actions ∧ [3, 3] ∉ actions := by
  obtain ⟨actions, h1, _, _, h4, h5⟩ :=
    generate_action_space_all_splits [1, 2] 5 (by simp) (by norm_num)
  refine ⟨actions, h1, ?_, ?_, ?_⟩
  · rw [h5]
    rfl
  · rw [h4]
    refine ⟨rfl, ?_, rfl⟩
    intro x hx
    simp at hx
    rcases hx with rfl | rfl <;> norm_num
  · rw [h4]
    rintro ⟨_, _, h⟩
    norm_num at h

/-! ## `Game::get_ev` of `blotto.cpp` -/

/-- An iteration of the loop of `get_ev` at an index that is not an index of the player's
allocation reads out of range. -/
theorem get_ev_body_none (tower_values my_distribution opp_distribution : List ℤ) (i : Nat)
    (score : ℚ) (h : my_distribution.length ≤ i) :
    Blotto.get_ev_body tower_values my_distribution opp_distribution i score = none := by
  simp [Blotto.get_ev_body, rd, List.getElem?_eq_none h]

/-- The loop of `get_ev`, which runs over `i < 5`, reads out of range when the allocation has
two entries. -/
theorem get_ev_loop_none (tower_values my_distribution opp_distribution : List ℤ) (score : ℚ)
    (h : my_distribution.length = 2) :
    forLoop 5 (Blotto.get_ev_body tower_values my_distribution opp_distribution) score
      = none := by
  simp only [forLoop, forLoopFrom]
  cases Blotto.get_ev_body tower_values my_distribution opp_distribution 0 score with
  | none => rfl
  | some s1 =>
    simp only [Option.some_bind]
    cases Blotto.get_ev_body tower_values my_distribution opp_distribution (0 + 1) s1 with
    | none => rfl
    | some s2 =>
      simp only [Option.some_bind]
      rw [get_ev_body_none _ _ _ _ _ (by omega)]
      rfl

/-- C14. For the Blotto `Game` as constructed, `get_ev(0, 1)`, the allocation `(0, 5)` against
`(1, 4)`, is not the sum over the two towers: the two iterations over the towers of the game
give `-1 + 2 = 1`, the value of the claim, but the loop runs on over `i < 5`, and its iteration
`i = 2` reads `action_space[0][2]`, past the two entries of the allocation. -/
theorem blotto_get_ev_reads_past_towers :
    ∃ g, Blotto.Game.new = some g ∧ 1 < g.num_actions ∧
      rd g.action_space 0 = some [0, 5] ∧ rd g.action_space 1 = some [1, 4] ∧
      g.tower_values.length = 2 ∧
      forLoop 2 (Blotto.get_ev_body g.tower_values [0, 5] [1, 4]) 0 = some 1 ∧
      Blotto.get_ev_body g.tower_values [0, 5] [1, 4] 2 1 = none ∧
      g.get_ev 0 1 = none := by
  refine ⟨_, blotto_new_eq, by norm_num, rfl, rfl, rfl, ?_, ?_, ?_⟩
  · simp [forLoop, forLoopFrom, Blotto.get_ev_body, rd]
    norm_num
  · exact get_ev_body_none _ _ _ _ _ (by simp)
  · show (rd _ 0).bind _ = none
    simp only [rd, List.getElem?_cons_zero, List.getElem?_cons_succ, Option.some_bind]
    exact get_ev_loop_none _ _ _ _ rfl

/-- C15. For the Blotto `Game` as constructed, `get_ev` is defined for no pair of actions: for
all action indices the loop over `i < 5` reads past the two entries of the allocations (and an
index that is not an action reads past `action_space`). -/
theorem blotto_get_ev_never_defined :
    ∃ g, Blotto.Game.new = some g ∧ 0 < g.num_actions ∧
      (∀ v ∈ g.action_space, v.length = 2) ∧ ∀ a b, g.get_ev a b = none := by
  have hlen : ∀ v ∈ [[(0 : ℤ), 5], [1, 4], [2, 3], [3, 2], [4, 1], [5, 0]], v.length = 2 := by
    intro v hv
    simp only [List.mem_cons, List.mem_singleton, List.mem_nil_iff, or_false] at hv
    rcases hv with rfl | rfl | rfl | rfl | rfl | rfl <;> rfl
  refine ⟨_, blotto_new_eq, by norm_num, hlen, ?_⟩
  intro a b
  show (rd _ a).bind _ = none
  cases ha : rd [[(0 : ℤ), 5], [1, 4], [2, 3], [3, 2], [4, 1], [5, 0]] a with
  | none => rfl
  | some my =>
    rw [Option.some_bind]
    cases hb : rd [[(0 : ℤ), 5], [1, 4], [2, 3], [3, 2], [4, 1], [5, 0]] b with
    | none => rfl
    | some opp =>
      rw [Option.some_bind]
      exact get_ev_loop_none _ _ _ _ (hlen my (List.getElem?_mem ha))

/-! ## Zero-sum games -/

/-- In a zero-sum game the expected value of `x` against `y` is the opposite of that of `y`
against `x`. -/
theorem double_sum_antisymm (n : Nat) (ev : Nat → Nat → ℚ) (x y : Nat → ℚ)
    (h : ∀ a b, a < n → b < n → ev a b = -ev b a) :
    ∑ a in Finset.range n, ∑ b in Finset.range n, ev a b * x a * y b
      = -∑ a in Finset.range n, ∑ b in Finset.range n, ev a b * y a * x b := by
  rw [Finset.sum_comm, ← Finset.sum_neg_distrib]
  apply Finset.sum_congr rfl
  intro b hb
  rw [← Finset.sum_neg_distrib]
  apply Finset.sum_congr rfl
  intro a ha
  rw [h a b (Finset.mem_range.mp ha) (Finset.mem_range.mp hb)]
  ring

/-- In a zero-sum game the expected value of a strategy against itself is zero. -/
theorem double_sum_self (n : Nat) (ev : Nat → Nat → ℚ) (x : Nat → ℚ)
    (h : ∀ a b, a < n → b < n → ev a b = -ev b a) :
    ∑ a in Finset.range n, ∑ b in Finset.range n, ev a b * x a * x b = 0 := by
  have e := double_sum_antisymm n ev x x h
  linarith

/-- The payoffs of `solver.cpp` are antisymmetric. -/
theorem solver_ev_antisymm (a b : Nat) (ha : a < solverGame.num_actions)
    (hb : b < solverGame.num_actions) :
    (solver_get_ev a b).getD 0 = -(solver_get_ev b a).getD 0 := by
  obtain ⟨t00, t01, t02, t10, t11, t12, t20, t21, t22⟩ := solver_get_ev_table
  have hn : solverGame.num_actions = 3 := rfl
  rw [hn] at ha hb
  interval_cases a <;> interval_cases b <;> simp [*]

/-- C17. Fair-game property.  For a zero-sum game (`get_ev(a, b) = -get_ev(b, a)` for all
actions) and two players `p`, `q` of it with one strategy sum per action, whose average
strategies are `mp` and `mq`: `compare_strategy` of `p` against `mq` is the opposite of
`compare_strategy` of `q` against `mp`, and `compare_strategy` of `p` against its own average
strategy returns exactly 0. -/
theorem compare_strategy_fair (p q : Player) (ev : Nat → Nat → ℚ)
    (hzs : ∀ a b, a < p.game.num_actions → b < p.game.num_actions → ev a b = -ev b a)
    (hevp : ∀ a b, a < p.game.num_actions → b < p.game.num_actions →
      p.game.get_ev a b = some (ev a b))
    (hevq : ∀ a b, a < q.game.num_actions → b < q.game.num_actions →
      q.game.get_ev a b = some (ev a b))
    (hn : q.game.num_actions = p.game.num_actions)
    (hsp : p.strategy_sum.length = p.game.num_actions)
    (hsq : q.strategy_sum.length = q.game.num_actions) :
    ∃ mp mq x y, p.get_average_strategy = some (p, mp) ∧
      q.get_average_strategy = some (q, mq) ∧
      p.compare_strategy mq = some (p, x) ∧ q.compare_strategy mp = some (q, y) ∧
      x = -y ∧ p.compare_strategy mp = some (p, 0) := by
  obtain ⟨mp, a1, l1⟩ := get_average_strategy_length p
  obtain ⟨mq, a2, l2⟩ := get_average_strategy_length q
  have c1 := compare_strategy_eq p mq mp ev hevp hsp (by omega) a1
  have c2 := compare_strategy_eq q mp mq ev hevq hsq (by omega) a2
  have c3 := compare_strategy_eq p mp mp ev hevp hsp (by omega) a1
  rw [double_sum_self p.game.num_actions ev (fun a => mp.getD a 0) hzs] at c3
  refine ⟨mp, mq, _, _, a1, a2, c1, c2, ?_, c3⟩
  rw [hn]
  exact double_sum_antisymm p.game.num_actions ev (fun a => mp.getD a 0)
    (fun a => mq.getD a 0) hzs

/-- C17, at a concrete input: rock-paper-scissors players with strategy sums `[2, 1, 1]` and
`[0, 1, 0]`. -/
theorem compare_strategy_fair_witness :
    (⟨[0, 0, 0], [2, 1, 1], solverGame⟩ : Player).compare_strategy [1/2, 1/4, 1/4]
      = some (⟨[0, 0, 0], [2, 1, 1], solverGame⟩, 0) := by
  obtain ⟨mp, _, _, _, a1, _, _, _, _, h⟩ := compare_strategy_fair
    ⟨[0, 0, 0], [2, 1, 1], solverGame⟩ ⟨[0, 0, 0], [0, 1, 0], solverGame⟩
    (fun a b => (solver_get_ev a b).getD 0) solver_ev_antisymm solver_get_ev_defined
    solver_get_ev_defined rfl rfl rfl
  rw [get_average_strategy_eq] at a1
  have e := congrArg Prod.snd (Option.some.inj a1)
  simp only at e
  have e' : mp = [1/2, 1/4, 1/4] := by
    rw [← e]
    norm_num
  rw [← e']
  exact h

/-- The entries of a vector of nonnegative entries, read with a default of zero, are
nonnegative. -/
theorem getD_nonneg (v : List ℚ) (hnn : ∀ x ∈ v, 0 ≤ x) (i : Nat) : 0 ≤ v.getD i 0 := by
  by_cases h : i < v.length
  · rw [List.getD_eq_getElem _ _ h]
    exact hnn _ (List.getElem_mem _)
  · rw [List.getD_eq_default _ _ (by omega)]

/-- The value of a distribution `y` against `theirs`, in a table of per-action values, is at
most any upper bound of these values. -/
theorem weighted_le_of_le (n : Nat) (val y : Nat → ℚ) (best : ℚ)
    (hy : ∀ a, 0 ≤ y a) (hsum : ∑ a in Finset.range n, y a = 1)
    (hub : ∀ a, a < n → val a ≤ best) :
    ∑ a in Finset.range n, y a * val a ≤ best := by
  calc ∑ a in Finset.range n, y a * val a
      ≤ ∑ a in Finset.range n, y a * best :=
        Finset.sum_le_sum (fun a ha =>
          mul_le_mul_of_nonneg_left (hub a (Finset.mem_range.mp ha)) (hy a))
    _ = best := by rw [← Finset.sum_mul, hsum, one_mul]

/-- In a zero-sum game some action has a nonnegative expected value against any
distribution. -/
theorem exists_nonneg_action (n : Nat) (ev : Nat → Nat → ℚ) (x : Nat → ℚ)
    (hzs : ∀ a b, a < n → b < n → ev a b = -ev b a)
    (hx : ∀ a, 0 ≤ x a) (hsum : ∑ a in Finset.range n, x a = 1) :
    ∃ a, a < n ∧ 0 ≤ ∑ b in Finset.range n, ev a b * x b := by
  by_contra hcon
  have hneg : ∀ a, a < n → ∑ b in Finset.range n, ev a b * x b < 0 := by
    intro a ha
    by_contra h
    exact hcon ⟨a, ha, not_lt.mp h⟩
  have hzero : ∑ a in Finset.range n, x a * ∑ b in Finset.range n, ev a b * x b = 0 := by
    rw [← double_sum_self n ev x hzs]
    apply Finset.sum_congr rfl
    intro a _
    rw [Finset.mul_sum]
    apply Finset.sum_congr rfl
    intro b _
    ring
  have hpos : ∃ a ∈ Finset.range n, 0 < x a := by
    by_contra h
    have hle : ∑ a in Finset.range n, x a ≤ 0 :=
      Finset.sum_nonpos (fun a ha => not_lt.mp (fun hlt => h ⟨a, ha, hlt⟩))
    rw [hsum] at hle
    exact absurd hle (by norm_num)
  obtain ⟨a0, ha0, hxa0⟩ := hpos
  have hlt : ∑ a in Finset.range n, x a * ∑ b in Finset.range n, ev a b * x b
      < ∑ _a in Finset.range n, (0 : ℚ) :=
    Finset.sum_lt_sum
      (fun a ha => mul_nonpos_of_nonneg_of_nonpos (hx a) (hneg a (Finset.mem_range.mp ha)).le)
      ⟨a0, ha0, mul_neg_of_pos_of_neg hxa0 (hneg a0 (Finset.mem_range.mp ha0))⟩
  rw [hzero, Finset.sum_const_zero] at hlt
  exact lt_irrefl 0 hlt

/-- C20. The `0.0` seed of the running maximum in `opponent_best_action_ev` does not change the
result on valid inputs: for a zero-sum game (`get_ev` antisymmetric) with `num_actions > 0` and
a distribution `theirs` (one nonnegative entry per action, summing to 1), some action has an
expected value `>= 0` against `theirs`, and the value returned is the true maximum over the
actions `a` of `sum over b of get_ev(a, b) * theirs[b]`: it is at least the expected value of
every action and is the expected value of one of them. -/
theorem opponent_best_action_ev_true_max (p : Player) (theirs : List ℚ) (ev : Nat → Nat → ℚ)
    (hn : 0 < p.game.num_actions)
    (hzs : ∀ a b, a < p.game.num_actions → b < p.game.num_actions → ev a b = -ev b a)
    (hev : ∀ a b, a < p.game.num_actions → b < p.game.num_actions →
      p.game.get_ev a b = some (ev a b))
    (hlen : theirs.length = p.game.num_actions)
    (hnn : ∀ x ∈ theirs, 0 ≤ x) (hsum : theirs.sum = 1) :
    ∃ best, p.opponent_best_action_ev theirs = some (p, best) ∧
      (∃ a, a < p.game.num_actions ∧
        0 ≤ ∑ b in Finset.range p.game.num_actions, ev a b * theirs.getD b 0) ∧
      (∀ a, a < p.game.num_actions →
        ∑ b in Finset.range p.game.num_actions, ev a b * theirs.getD b 0 ≤ best) ∧
      (∃ a, a < p.game.num_actions ∧
        best = ∑ b in Finset.range p.game.num_actions, ev a b * theirs.getD b 0) ∧
      best = (Finset.range p.game.num_actions).sup' ⟨0, Finset.mem_range.mpr hn⟩
        (fun a => ∑ b in Finset.range p.game.num_actions, ev a b * theirs.getD b 0) := by
  obtain ⟨best, h1, h2, h3, h4⟩ := opponent_best_action_ev_eq p theirs ev hev hlen
  have hs : ∑ a in Finset.range p.game.num_actions, theirs.getD a 0 = 1 := by
    rw [← hlen, sum_range_getD, hsum]
  obtain ⟨a0, ha0, hv0⟩ := exists_nonneg_action p.game.num_actions ev
    (fun a => theirs.getD a 0) hzs (getD_nonneg theirs hnn) hs
  have hatt : ∃ a, a < p.game.num_actions ∧
      best = ∑ b in Finset.range p.game.num_actions, ev a b * theirs.getD b 0 := by
    rcases h4 with h | h
    · exact ⟨a0, ha0, le_antisymm (h ▸ hv0) (h3 a0 ha0)⟩
    · exact h
  refine ⟨best, h1, ⟨a0, ha0, hv0⟩, h3, hatt, ?_⟩
  obtain ⟨a1, ha1, hb1⟩ := hatt
  apply le_antisymm
  · rw [hb1]
    exact Finset.le_sup' (fun a => ∑ b in Finset.range p.game.num_actions,
      ev a b * theirs.getD b 0) (Finset.mem_range.mpr ha1)
  · exact Finset.sup'_le _ _ (fun a ha => h3 a (Finset.mem_range.mp ha))

/-- C20, at a concrete input: in rock-paper-scissors against the distribution
`[1/4, 1/4, 1/2]` every action has expected value 0, and the value returned is 0, the true
maximum. -/
theorem opponent_best_action_ev_true_max_witness :
    ∃ best, (⟨[0, 0, 0], [0, 0, 0], solverGame⟩ : Player).opponent_best_action_ev
        [1/4, 1/4, 1/2] = some (⟨[0, 0, 0], [0, 0, 0], solverGame⟩, best) ∧
      ∃ a, a < 3 ∧ best = ∑ b in Finset.range 3,
        (solver_get_ev a b).getD 0 * ([1/4, 1/4, 1/2] : List ℚ).getD b 0 := by
  obtain ⟨best, h1, _, _, h4, _⟩ := opponent_best_action_ev_true_max
    ⟨[0, 0, 0], [0, 0, 0], solverGame⟩ [1/4, 1/4, 1/2] (fun a b => (solver_get_ev a b).getD 0)
    (by simp [solverGame, solver_action_space]) solver_ev_antisymm solver_get_ev_defined rfl
    (by intro x hx; simp at hx; rcases hx with rfl | rfl | rfl <;> norm_num)
    (by norm_num)
  exact ⟨best, h1, h4⟩

/-! ## The sign of the exploitability -/

/-- C16, counterexample.  Rock-paper-scissors is zero-sum; `p1` with strategy sums `[0, 1, 0]`
has the average strategy "always paper" and `p2` with `[1, 0, 0]` has "always rock", both valid
distributions.  The best response to paper (scissors) is worth 1, `p1` earns 2 against `p2`,
and `get_exploitability_p1` returns `1 - 2 = -1`, which is negative. -/
theorem get_exploitability_p1_negative :
    (∀ a b, a < solverGame.num_actions → b < solverGame.num_actions →
      ∃ u v, solverGame.get_ev a b = some u ∧ solverGame.get_ev b a = some v ∧ u = -v) ∧
    (⟨[0, 0, 0], [0, 1, 0], solverGame⟩ : Player).get_average_strategy
      = some (⟨[0, 0, 0], [0, 1, 0], solverGame⟩, [0, 1, 0]) ∧
    (⟨[0, 0, 0], [1, 0, 0], solverGame⟩ : Player).get_average_strategy
      = some (⟨[0, 0, 0], [1, 0, 0], solverGame⟩, [1, 0, 0]) ∧
    (∀ x ∈ [(0 : ℚ), 1, 0], 0 ≤ x) ∧ [(0 : ℚ), 1, 0].sum = 1 ∧
    (∀ x ∈ [(1 : ℚ), 0, 0], 0 ≤ x) ∧ [(1 : ℚ), 0, 0].sum = 1 ∧
    (⟨[0, 0, 0], [1, 0, 0], solverGame⟩ : Player).opponent_best_action_ev [0, 1, 0]
      = some (⟨[0, 0, 0], [1, 0, 0], solverGame⟩, 1) ∧
    (⟨[0, 0, 0], [0, 1, 0], solverGame⟩ : Player).compare_strategy [1, 0, 0]
      = some (⟨[0, 0, 0], [0, 1, 0], solverGame⟩, 2) ∧
    (⟨⟨[0, 0, 0], [0, 1, 0], solverGame⟩, ⟨[0, 0, 0], [1, 0, 0], solverGame⟩⟩ :
      Trainer).get_exploitability_p1
      = some (⟨⟨[0, 0, 0], [0, 1, 0], solverGame⟩, ⟨[0, 0, 0], [1, 0, 0], solverGame⟩⟩, -1) ∧
    ¬ (0 : ℚ) ≤ -1 := by
  refine ⟨?_, ?_, ?_, ?_, by norm_num, ?_, by norm_num, ?_, ?_, ?_, by norm_num⟩
  · intro a b ha hb
    exact ⟨_, _, solver_get_ev_defined a b ha hb, solver_get_ev_defined b a hb ha,
      solver_ev_antisymm a b ha hb⟩
  · with_unfolding_all rfl
  · with_unfolding_all rfl
  · intro x hx
    simp at hx
    rcases hx with rfl | rfl | rfl <;> norm_num
  · intro x hx
    simp at hx
    rcases hx with rfl | rfl | rfl <;> norm_num
  · with_unfolding_all rfl
  · with_unfolding_all rfl
  · with_unfolding_all rfl

/-- C16, as amended.  For a zero-sum game (`get_ev` antisymmetric) with `num_actions > 0` and
players with one strategy sum per action, those of `p2` nonnegative (so that `avg2` is a valid
distribution), the value `br - cs` returned by `get_exploitability_p1`, with
`br = opponent_best_action_ev(avg1)` and `cs = compare_strategy(avg1, avg2)`, satisfies
`br >= 0` and `br >= -cs`; hence it is at least `-cs` and at least `-2 * cs`, and it is `>= 0`
whenever `cs <= 0`, that is whenever `p1`'s average strategy does not win against `p2`'s. -/
theorem get_exploitability_p1_bounds (t : Trainer) (ev : Nat → Nat → ℚ)
    (hn : 0 < t.p1.game.num_actions)
    (hzs : ∀ a b, a < t.p1.game.num_actions → b < t.p1.game.num_actions → ev a b = -ev b a)
    (hev1 : ∀ a b, a < t.p1.game.num_actions → b < t.p1.game.num_actions →
      t.p1.game.get_ev a b = some (ev a b))
    (hev2 : ∀ a b, a < t.p2.game.num_actions → b < t.p2.game.num_actions →
      t.p2.game.get_ev a b = some (ev a b))
    (hn2 : t.p2.game.num_actions = t.p1.game.num_actions)
    (hs1 : t.p1.strategy_sum.length = t.p1.game.num_actions)
    (hs2 : t.p2.strategy_sum.length = t.p2.game.num_actions)
    (hnn2 : ∀ x ∈ t.p2.strategy_sum, 0 ≤ x) :
    ∃ avg1 avg2 br cs,
      t.p1.get_average_strategy = some (t.p1, avg1) ∧
      t.p2.get_average_strategy = some (t.p2, avg2) ∧
      t.p2.opponent_best_action_ev avg1 = some (t.p2, br) ∧
      t.p1.compare_strategy avg2 = some (t.p1, cs) ∧
      t.get_exploitability_p1 = some (t, br - cs) ∧
      0 ≤ br ∧ -cs ≤ br ∧ -cs ≤ br - cs ∧ -(2 * cs) ≤ br - cs ∧ (cs ≤ 0 → 0 ≤ br - cs) := by
  obtain ⟨avg1, a1, l1⟩ := get_average_strategy_length t.p1
  obtain ⟨avg2, a2, l2, nn2, sum2⟩ := get_average_strategy_valid t.p2 (by omega) hnn2
  have c := compare_strategy_eq t.p1 avg2 avg1 ev hev1 hs1 (by omega) a1
  obtain ⟨br, b1, b2, b3, _⟩ := opponent_best_action_ev_eq t.p2 avg1 ev hev2 (by omega)
  have hs : ∑ a in Finset.range t.p1.game.num_actions, avg2.getD a 0 = 1 := by
    have e : t.p1.game.num_actions = avg2.length := by omega
    rw [e, sum_range_getD, sum2]
  have hw := weighted_le_of_le t.p1.game.num_actions
    (fun a => ∑ b in Finset.range t.p1.game.num_actions, ev a b * avg1.getD b 0)
    (fun a => avg2.getD a 0) br (getD_nonneg avg2 nn2) hs
    (fun a ha => by
      have := b3 a (by omega)
      rw [hn2] at this
      exact this)
  have hcs : ∑ a in Finset.range t.p1.game.num_actions, avg2.getD a 0 *
        ∑ b in Finset.range t.p1.game.num_actions, ev a b * avg1.getD b 0
      = -∑ a in Finset.range t.p1.game.num_actions,
          ∑ b in Finset.range t.p1.game.num_actions,
            ev a b * avg1.getD a 0 * avg2.getD b 0 := by
    rw [← double_sum_antisymm t.p1.game.num_actions ev (fun a => avg2.getD a 0)
      (fun a => avg1.getD a 0) hzs]
    apply Finset.sum_congr rfl
    intro a _
    rw [Finset.mul_sum]
    apply Finset.sum_congr rfl
    intro b _
    ring
  rw [hcs] at hw
  refine ⟨avg1, avg2, br, _, a1, a2, b1, c,
    get_exploitability_p1_eq t avg1 avg2 br _ a1 a2 c b1, b2, hw, ?_, ?_, ?_⟩
  · linarith
  · linarith
  · intro h
    linarith

/-- C16 as amended, at a concrete input: rock-paper-scissors players with strategy sums
`[2, 1, 1]` and `[0, 1, 0]`. -/
theorem get_exploitability_p1_bounds_witness :
    ∃ br cs, (⟨⟨[0, 0, 0], [2, 1, 1], solverGame⟩, ⟨[0, 0, 0], [0, 1, 0], solverGame⟩⟩ :
      Trainer).get_exploitability_p1
        = some (⟨⟨[0, 0, 0], [2, 1, 1], solverGame⟩, ⟨[0, 0, 0], [0, 1, 0], solverGame⟩⟩,
            br - cs) ∧ -cs ≤ br := by
  obtain ⟨_, _, br, cs, _, _, _, _, h, _, h', _⟩ := get_exploitability_p1_bounds
    ⟨⟨[0, 0, 0], [2, 1, 1], solverGame⟩, ⟨[0, 0, 0], [0, 1, 0], solverGame⟩⟩
    (fun a b => (solver_get_ev a b).getD 0) (by simp [solverGame, solver_action_space])
    solver_ev_antisymm solver_get_ev_defined solver_get_ev_defined rfl rfl rfl
    (by intro x hx; simp at hx; rcases hx with rfl | rfl | rfl <;> norm_num)
  exact ⟨br, cs, h, h'⟩

/-! ## The accumulators during training -/

/-- Adding a vector, entry by entry, into another of the same length: the sums add up, and
nonnegative entries stay nonnegative. -/
theorem accumulate_sum (old ss st : List ℚ) (n : Nat)
    (ho : old.length = n) (hs : ss.length = n) (ht : st.length = n)
    (hpt : ∀ j, j < n → ss[j]? = old[j]?.map (fun x => x + st.getD j 0)) :
    ss.sum = old.sum + st.sum ∧
      ((∀ x ∈ old, 0 ≤ x) → (∀ x ∈ st, 0 ≤ x) → ∀ x ∈ ss, 0 ≤ x) := by
  have hget : ∀ j, j < n → ss.getD j 0 = old.getD j 0 + st.getD j 0 := by
    intro j hj
    have h := hpt j hj
    rw [List.getElem?_eq_getElem (by omega), List.getElem?_eq_getElem (by omega)] at h
    rw [List.getD_eq_getElem _ _ (by omega), List.getD_eq_getElem old _ (by omega)]
    simpa using h
  constructor
  · rw [← sum_range_getD ss, ← sum_range_getD old, ← sum_range_getD st, hs, ho, ht,
      ← Finset.sum_add_distrib]
    exact Finset.sum_congr rfl (fun j hj => hget j (Finset.mem_range.mp hj))
  · intro hold hst x hx
    obtain ⟨j, hj, rfl⟩ := List.getElem_of_mem hx
    have e := hget j (by omega)
    rw [List.getD_eq_getElem _ _ hj] at e
    rw [e]
    exact add_nonneg (getD_nonneg old hold j) (getD_nonneg st hst j)

/-- One round, for players fit for the game and draws below 1: it succeeds, keeps the players
fit, adds one unit of probability mass to each `strategy_sum` and keeps its entries
nonnegative. -/
theorem round_of_draws_acc (t : Trainer) (n : Nat) (ev1 ev2 : Nat → Nat → ℚ) (r1 r2 : ℚ)
    (hn : 0 < n) (h1 : t.p1.WellFormed n ev1) (h2 : t.p2.WellFormed n ev2)
    (hr1 : r1 < 1) (hr2 : r2 < 1) :
    ∃ t', t.round_of_draws r1 r2 = some t' ∧ t'.p1.WellFormed n ev1 ∧
      t'.p2.WellFormed n ev2 ∧
      t'.p1.strategy_sum.sum = t.p1.strategy_sum.sum + 1 ∧
      t'.p2.strategy_sum.sum = t.p2.strategy_sum.sum + 1 ∧
      ((∀ x ∈ t.p1.strategy_sum, 0 ≤ x) → ∀ x ∈ t'.p1.strategy_sum, 0 ≤ x) ∧
      ((∀ x ∈ t.p2.strategy_sum, 0 ≤ x) → ∀ x ∈ t'.p2.strategy_sum, 0 ≤ x) ∧
      t'.p1.game = t.p1.game ∧ t'.p2.game = t.p2.game := by
  obtain ⟨hr, hs, hg, hev⟩ := h1
  obtain ⟨hr', hs', hg', hev'⟩ := h2
  obtain ⟨ss1, st1, c1, _, l1, m1, n1, s1, p1⟩ := get_action_core_eq t.p1 n hn hr hs
  obtain ⟨ss2, st2, c2, _, l2, m2, n2, s2, p2⟩ := get_action_core_eq t.p2 n hn hr' hs'
  have a1 : sampleWith st1 r1 < n := by
    have := sampleWith_lt st1 r1 (by omega) s1 hr1
    omega
  have a2 : sampleWith st2 r2 < n := by
    have := sampleWith_lt st2 r2 (by omega) s2 hr2
    omega
  obtain ⟨rs1, u1, v1, _⟩ := update_regrets_eq { t.p1 with strategy_sum := ss1 }
    (sampleWith st1 r1) (sampleWith st2 r2) ev1 (by simpa using hr.trans hg.symm)
    (by simpa [hg] using hev) (by simpa [hg] using a1) (by simpa [hg] using a2)
  obtain ⟨rs2, u2, v2, _⟩ := update_regrets_eq { t.p2 with strategy_sum := ss2 }
    (sampleWith st2 r2) (sampleWith st1 r1) ev2 (by simpa using hr'.trans hg'.symm)
    (by simpa [hg'] using hev') (by simpa [hg'] using a2) (by simpa [hg'] using a1)
  simp only at u1 v1 u2 v2
  obtain ⟨e1, k1⟩ := accumulate_sum t.p1.strategy_sum ss1 st1 n hs l1 m1 p1
  obtain ⟨e2, k2⟩ := accumulate_sum t.p2.strategy_sum ss2 st2 n hs' l2 m2 p2
  refine ⟨⟨⟨rs1, ss1, t.p1.game⟩, ⟨rs2, ss2, t.p2.game⟩⟩, ?_, ⟨?_, l1, hg, hev⟩,
    ⟨?_, l2, hg', hev'⟩, ?_, ?_, fun h => k1 h n1, fun h => k2 h n2, rfl, rfl⟩
  · unfold Trainer.round_of_draws
    rw [c1, Option.some_bind, c2, Option.some_bind]
    simp only
    rw [u1, Option.some_bind, u2, Option.some_bind]
  · show rs1.length = n
    rw [v1]
    exact hr
  · show rs2.length = n
    rw [v2]
    exact hr'
  · show ss1.sum = _
    rw [e1, s1]
  · show ss2.sum = _
    rw [e2, s2]

/-- After `k` rounds from freshly constructed players of a game with `n > 0` actions, with draws
below 1: the rounds succeed, the players are fit for the game, and each `strategy_sum` has
nonnegative entries that sum to `k`. -/
theorem rounds_of_draws_acc (g : Game) (ev : Nat → Nat → ℚ) (draws : Nat → ℚ) (pos : Nat)
    (hn : 0 < g.num_actions)
    (hev : ∀ a b, a < g.num_actions → b < g.num_actions → g.get_ev a b = some (ev a b))
    (hd : ∀ k, draws k < 1) :
    ∀ k : Nat, ∃ t', (⟨Player.mk_from g, Player.mk_from g⟩ : Trainer).rounds_of_draws
        draws pos k = some t' ∧
      t'.p1.WellFormed g.num_actions ev ∧ t'.p2.WellFormed g.num_actions ev ∧
      t'.p1.strategy_sum.sum = k ∧ t'.p2.strategy_sum.sum = k ∧
      (∀ x ∈ t'.p1.strategy_sum, 0 ≤ x) ∧ (∀ x ∈ t'.p2.strategy_sum, 0 ≤ x) := by
  have hwf : (Player.mk_from g).WellFormed g.num_actions ev :=
    ⟨by simp [Player.mk_from], by simp [Player.mk_from], rfl, hev⟩
  have hz : ∀ x ∈ (Player.mk_from g).strategy_sum, (0 : ℚ) ≤ x := by
    intro x hx
    rw [(List.mem_replicate.mp hx).2]
  intro k
  induction k with
  | zero =>
    exact ⟨_, rfl, hwf, hwf, by simp [Player.mk_from], by simp [Player.mk_from], hz, hz⟩
  | succ k ih =>
    obtain ⟨t', e, w1, w2, s1, s2, n1, n2⟩ := ih
    obtain ⟨t'', e', w1', w2', s1', s2', n1', n2', _, _⟩ :=
      round_of_draws_acc t' g.num_actions ev ev _ _ hn w1 w2
        (hd (pos + 2 * k)) (hd (pos + 2 * k + 1))
    refine ⟨t'', ?_, w1', w2', ?_, ?_, n1' n1, n2' n2⟩
    · rw [Trainer.rounds_of_draws, e, Option.some_bind, e']
    · rw [s1', s1]
      push_cast
      ring
    · rw [s2', s2]
      push_cast
      ring

/-- The average strategy of a player whose `strategy_sum` has a positive total `c`. -/
theorem get_average_strategy_of_sum (p : Player) (c : ℚ) (hc : 0 < c)
    (hs : p.strategy_sum.sum = c) :
    p.get_average_strategy = some (p, p.strategy_sum.map (fun x => x / c)) := by
  rw [get_average_strategy_eq, if_neg (by rw [hs]; exact not_le.mpr hc), hs]

/-- C19. Accumulator invariant of training.  Starting from freshly constructed players of a
game with `num_actions > 0` whose `get_ev` is defined on the action indices, for every sequence
of draws below 1 and every `N >= 0`, `train(N)` returns, and afterwards each player's
`regret_sum` and `strategy_sum` have length `num_actions`, every entry of `strategy_sum` is
`>= 0`, and the entries of `strategy_sum` sum to exactly `N`; hence for `N >= 1`
`get_average_strategy` does not take the uniform fallback and returns `strategy_sum[i] / N`. -/
theorem train_accumulators (g : Game) (ev : Nat → Nat → ℚ) (mt : Mt) (N : ℤ)
    (hn : 0 < g.num_actions)
    (hev : ∀ a b, a < g.num_actions → b < g.num_actions → g.get_ev a b = some (ev a b))
    (hd : ∀ k, mt.draws k < 1) (hN : 0 ≤ N) :
    ∃ t' mt', (⟨Player.mk_from g, Player.mk_from g⟩ : Trainer).train N mt = some (t', mt') ∧
      t'.p1.regret_sum.length = g.num_actions ∧ t'.p1.strategy_sum.length = g.num_actions ∧
      t'.p2.regret_sum.length = g.num_actions ∧ t'.p2.strategy_sum.length = g.num_actions ∧
      (∀ x ∈ t'.p1.strategy_sum, 0 ≤ x) ∧ (∀ x ∈ t'.p2.strategy_sum, 0 ≤ x) ∧
      t'.p1.strategy_sum.sum = (N : ℚ) ∧ t'.p2.strategy_sum.sum = (N : ℚ) ∧
      (1 ≤ N →
        t'.p1.get_average_strategy
          = some (t'.p1, t'.p1.strategy_sum.map (fun x => x / (N : ℚ))) ∧
        t'.p2.get_average_strategy
          = some (t'.p2, t'.p2.strategy_sum.map (fun x => x / (N : ℚ)))) := by
  obtain ⟨t', e, w1, w2, s1, s2, n1, n2⟩ :=
    rounds_of_draws_acc g ev mt.draws mt.pos hn hev hd N.toNat
  have hc : ((N.toNat : Nat) : ℚ) = (N : ℚ) := by
    have : ((N.toNat : Nat) : ℤ) = N := Int.toNat_of_nonneg hN
    exact_mod_cast this
  rw [hc] at s1 s2
  refine ⟨t', ⟨mt.draws, mt.pos + 2 * N.toNat⟩, ?_, w1.1, w1.2.1, w2.1, w2.2.1, n1, n2,
    s1, s2, ?_⟩
  · unfold Trainer.train
    rw [train_loop_eq, e]
    rfl
  · intro h1
    have hpos : (0 : ℚ) < (N : ℚ) := by exact_mod_cast (by omega : (0 : ℤ) < N)
    exact ⟨get_average_strategy_of_sum t'.p1 _ hpos s1,
      get_average_strategy_of_sum t'.p2 _ hpos s2⟩

/-- C19, at a concrete input: two fresh rock-paper-scissors players, three rounds, every draw
`1/2`; afterwards the strategy sums of `p1` add up to 3. -/
theorem train_accumulators_witness :
    ∃ t' mt', (⟨Player.mk_from solverGame, Player.mk_from solverGame⟩ : Trainer).train 3
        ⟨fun _ => 1/2, 0⟩ = some (t', mt') ∧
      t'.p1.strategy_sum.length = 3 ∧ t'.p1.strategy_sum.sum = 3 := by
  obtain ⟨t', mt', h, _, h2, _, _, _, _, h7, _⟩ := train_accumulators solverGame
    (fun a b => (solver_get_ev a b).getD 0) ⟨fun _ => 1/2, 0⟩ 3
    (by simp [solverGame, solver_action_space]) solver_get_ev_defined
    (fun _ => by norm_num) (by norm_num)
  exact ⟨t', mt', h, h2, by simpa using h7⟩

/-! ## The equilibrium of the rock-paper-scissors variant -/

/-- The distribution rock 1/4, paper 1/4, scissors 1/2 is the only one against which every
action of the payoff table of `solver.cpp` has expected value 0. -/
theorem solver_equilibrium (x y z : ℚ) (hsum : x + y + z = 1) :
    (∀ a, a < 3 → ∑ b in Finset.range 3,
      (solver_get_ev a b).getD 0 * ([x, y, z] : List ℚ).getD b 0 = 0)
      ↔ x = 1/4 ∧ y = 1/4 ∧ z = 1/2 := by
  obtain ⟨t00, t01, t02, t10, t11, t12, t20, t21, t22⟩ := solver_get_ev_table
  have e0 : ∑ b in Finset.range 3, (solver_get_ev 0 b).getD 0 * ([x, y, z] : List ℚ).getD b 0
      = -2 * y + z := by
    simp [Finset.sum_range_succ, t00, t01, t02]
  have e1 : ∑ b in Finset.range 3, (solver_get_ev 1 b).getD 0 * ([x, y, z] : List ℚ).getD b 0
      = 2 * x - z := by
    simp [Finset.sum_range_succ, t10, t11, t12]
    ring
  have e2 : ∑ b in Finset.range 3, (solver_get_ev 2 b).getD 0 * ([x, y, z] : List ℚ).getD b 0
      = -x + y := by
    simp [Finset.sum_range_succ, t20, t21, t22]
  constructor
  · intro h
    have h0 := h 0 (by norm_num)
    have h1 := h 1 (by norm_num)
    have h2 := h 2 (by norm_num)
    rw [e0] at h0
    rw [e1] at h1
    rw [e2] at h2
    refine ⟨?_, ?_, ?_⟩ <;> linarith
  · rintro ⟨rfl, rfl, rfl⟩ a ha
    interval_cases a
    · rw [e0]; norm_num
    · rw [e1]; norm_num
    · rw [e2]; norm_num

end ToySolver
